import Mathlib

/-!
Verification of the decyclify library: a shallow embedding of
`decyclify/functions.py` and `decyclify/node_iterators.py`, together with
theorems settling the specification claims about them.
-/

set_option maxRecDepth 4000

abbrev Node := String
abbrev Edge := Node × Node

/-- Directed graph in the sense of networkx `DiGraph`: nodes in insertion
order and edges in insertion order.  The successor dictionary of a node is
recovered from the edge list, which preserves per-node insertion order. -/
structure DiGraph where
  nodes : List Node
  edges : List Edge
deriving DecidableEq

/-- Successor list of `u` (`graph.adj[u]`) in insertion order. -/
def adjOf (es : List Edge) (u : Node) : List Node :=
  (es.filter (fun e => e.1 == u)).map (fun e => e.2)

/-- networkx `add_edge`: register unseen endpoints in order and append the
edge if it is not already present. -/
def addEdge (g : DiGraph) (u v : Node) : DiGraph :=
  let ns1 := if u ∈ g.nodes then g.nodes else g.nodes ++ [u]
  let ns2 := if v ∈ ns1 then ns1 else ns1 ++ [v]
  { nodes := ns2, edges := if (u, v) ∈ g.edges then g.edges else g.edges ++ [(u, v)] }

/-- Build a graph from an edge list, as `parse_edgelist` does for a list of
"source target" lines. -/
def buildGraph (l : List Edge) : DiGraph :=
  l.foldl (fun g e => addEdge g e.1 e.2) ⟨[], []⟩

/-- Well-formedness guaranteed by the graph constructors: no duplicate
nodes, no duplicate edges, and edge endpoints are nodes. -/
def WF (g : DiGraph) : Prop :=
  g.nodes.Nodup ∧ g.edges.Nodup ∧ ∀ e ∈ g.edges, e.1 ∈ g.nodes ∧ e.2 ∈ g.nodes

instance (g : DiGraph) : Decidable (WF g) := by
  unfold WF; infer_instance

inductive Color where
  | white
  | gray
  | black
deriving DecidableEq

/-- State of `_dfs_visit`: the mutable edge set, the node colors and the
`cycles_detected` accumulator.  `blacks` and `trees` are ghost observers
used only in proofs: `blacks` records the order in which nodes are painted
black and `trees` the edges along which the recursion descended; the
algorithm itself never reads them. -/
structure DfsState where
  edges : List Edge
  color : Node → Color
  removed : List Edge
  blacks : List Node
  trees : List Edge

/-- networkx `remove_edge(u, v)`. -/
def removeEdge (es : List Edge) (u v : Node) : List Edge :=
  es.filter (fun e => !(e.1 == u && e.2 == v))

/-- Loop over the successor snapshot inside `_dfs_visit`: a white successor
is handed to the recursive visit (passed in as `visit`), a gray successor is
a back edge, appended to `cycles_detected` and removed from the graph, a
black successor is skipped.  Colors are read at examination time, on the
state accumulated so far. -/
def dfsListF (visit : DfsState → Node → DfsState) (u : Node) : List Node → DfsState → DfsState
  | [], s => s
  | v :: rest, s =>
    let s' :=
      match s.color v with
      | Color.white => visit { s with trees := s.trees ++ [(u, v)] } v
      | Color.gray =>
          { s with edges := removeEdge s.edges u v, removed := s.removed ++ [(u, v)] }
      | Color.black => s
    dfsListF visit u rest s'

/-- `_dfs_visit`: paint `u` gray, walk the snapshot of its successors taken
at entry, then paint `u` black.  The recursion of the source is unbounded;
`fuel` bounds the depth here, and callers pass enough of it (the number of
nodes) that the zero case is never reached on a white start node. -/
def dfsVisit : Nat → DfsState → Node → DfsState
  | 0, s, _ => s
  | f + 1, s, u =>
    let s1 : DfsState := { s with color := fun x => if x = u then Color.gray else s.color x }
    let s2 := dfsListF (dfsVisit f) u (adjOf s1.edges u) s1
    { s2 with color := fun x => if x = u then Color.black else s2.color x,
              blacks := s2.blacks ++ [u] }

/-- Second pass of `decyclify`: drop every edge that runs from a node still
white into a node already black. -/
def middlePass (s : DfsState) : DfsState :=
  { s with edges := s.edges.filter (fun e =>
      !(s.color e.1 == Color.white && s.color e.2 == Color.black)) }

/-- Third pass of `decyclify`: visit every node still white, in node
order. -/
def thirdPass (fuel : Nat) (ns : List Node) (s : DfsState) : DfsState :=
  match ns with
  | [] => s
  | n :: rest =>
    let s' := if s.color n == Color.white then dfsVisit fuel s n else s
    thirdPass fuel rest s'

/-- `decyclify`.  For a graph with no nodes the source returns the bare
graph, not a pair, hence the sum type.  A missing `start_node` defaults to
the first node.  The fuel `g.nodes.length` dominates the recursion depth of
`_dfs_visit`, which never exceeds the number of white nodes.  The
`TypeError` for non-graph input and the `KeyError` for a start node outside
the graph are not modelled; theorems assume the start node, when given, is
a node of the graph. -/
def decyclify (g : DiGraph) (start : Option Node) : Sum DiGraph (DiGraph × List Edge) :=
  match g.nodes with
  | [] => Sum.inl g
  | n0 :: _ =>
    let st := start.getD n0
    let s0 : DfsState := ⟨g.edges, fun _ => Color.white, [], [], []⟩
    let s1 := dfsVisit g.nodes.length s0 st
    let s2 := middlePass s1
    let s3 := thirdPass g.nodes.length g.nodes s2
    Sum.inr (⟨g.nodes, s3.edges⟩, s3.removed)

/-- `create_intraiteration_matrix` on a `DiGraph`: cell (i, j) is 1 when
node i is a successor of node j; the diagonal is left 0.  A graph with no
nodes gives the empty matrix. -/
def create_intraiteration_matrix (g : DiGraph) : List (List Nat) :=
  let ns := g.nodes
  (List.range ns.length).map fun i =>
    (List.range ns.length).map fun j =>
      if i = j then 0
      else if ns.getD i "" ∈ adjOf g.edges (ns.getD j "") then 1 else 0

/-- Square matrix of zeros, `np.full((n, n), 0)`. -/
def zeroMatrix (n : Nat) : List (List Nat) :=
  (List.range n).map fun _ => (List.range n).map fun _ => 0

/-- `matrix.itemset((i, j), 1)` on a nested-list matrix. -/
def matSet1 (m : List (List Nat)) (i j : Nat) : List (List Nat) :=
  m.set i ((m.getD i []).set j 1)

/-- Lookup in `nodes_indices_in_matrix`: the position of a node in the node
list, `none` for an unknown node (on which the source's `itemset` call
raises). -/
def nodeIndex (ns : List Node) (x : Node) : Option Nat :=
  ns.findIdx? (fun n => n == x)

/-- Loop of `create_interiteration_matrix` over the removed edges: set cell
(index of target, index of source) to 1. -/
def interFill (ns : List Node) : List Edge → List (List Nat) → Option (List (List Nat))
  | [], m => some m
  | (src, tgt) :: rest, m =>
    match nodeIndex ns src, nodeIndex ns tgt with
    | some si, some ti => interFill ns rest (matSet1 m ti si)
    | _, _ => none

/-- `create_interiteration_matrix`; `none` models the error raised when a
removed edge mentions a node absent from the node list.  An empty removed
list, or an empty node list, gives the empty matrix, as in the source. -/
def create_interiteration_matrix (ns : List Node) (cycles : List Edge) :
    Option (List (List Nat)) :=
  if cycles.isEmpty then some []
  else if ns.length = 0 then some []
  else interFill ns cycles (zeroMatrix ns.length)

/-- Python exceptions surfacing from the iterators.  `fuelExhausted` is not a
Python error: it marks that the bounded model ran out of fuel, and concrete
results are always shown to be distinct from it. -/
inductive PyErr where
  | indexError
  | valueError
  | typeError
  | fuelExhausted
deriving DecidableEq

/-- State of a `CycleIterator`. -/
structure CycleIteratorState where
  matrix : List (List Nat)
  nodes : List Node
  countNodes : Nat
  cycles : Nat
  includeCycle : Bool
  currentCycle : Nat
  currentColumn : Int
deriving DecidableEq

/-- `CycleIterator.__init__` (validation of the argument types is not
modelled; a zero `cycles` raises in the source and is excluded by
hypotheses where it matters). -/
def mkCycleIterator (g : DiGraph) (cycles : Nat) (includeCycle : Bool) : CycleIteratorState :=
  { matrix := create_intraiteration_matrix g
    nodes := g.nodes
    countNodes := g.nodes.length
    cycles := cycles
    includeCycle := includeCycle
    currentCycle := 0
    currentColumn := -1 }

/-- `CycleIterator._get_node_text`. -/
def getNodeText (s : CycleIteratorState) (n : Node) : String :=
  if s.includeCycle then n ++ "." ++ toString s.currentCycle else n

/-- `matrix[i, j]` with explicit bounds: `none` means `IndexError`. -/
def matGet (m : List (List Nat)) (i j : Nat) : Option Nat :=
  match m.get? i with
  | none => none
  | some row => row.get? j

/-- Inner row loop of `CycleIterator.__next__` over one column: collect the
labels of every row whose entry in the column is 1, in row order. -/
def collectColumn (s : CycleIteratorState) (col : Nat) : List Nat → Except PyErr (List String)
  | [] => .ok []
  | r :: rest =>
    match matGet s.matrix r col with
    | none => .error .indexError
    | some v =>
      if v = 1 then
        match s.nodes.get? r with
        | none => .error .indexError
        | some n =>
          match collectColumn s col rest with
          | .ok l => .ok (getNodeText s n :: l)
          | .error e => .error e
      else collectColumn s col rest

/-- The `while True` column scan of `CycleIterator.__next__`: skip empty
columns; as in the source, once the column index passes the matrix width
the first matrix access of the row loop raises `IndexError`.  (For a graph
with zero nodes the source would instead loop forever; that state is
unreachable from the constructor, whose `current_column = -1` branch fires
first, and is mapped to `IndexError` here.) -/
def cycleScanAux (s : CycleIteratorState) : Nat → Nat → Except PyErr (List String × Nat)
  | 0, _ => .error .indexError
  | r + 1, col =>
    match collectColumn s col (List.range s.countNodes) with
    | .error e => .error e
    | .ok [] => cycleScanAux s r (col + 1)
    | .ok batch => .ok (batch, col)

/-- Entry point of the scan: the remaining-column counter
`countNodes - col` reaches zero exactly when the column index has passed
the matrix width. -/
def cycleScan (s : CycleIteratorState) (col : Nat) : Except PyErr (List String × Nat) :=
  cycleScanAux s (s.countNodes - col) col

/-- Result of one `__next__` call of a `CycleIterator`. -/
inductive CycStep where
  | stop
  | next (batch : List String) (s : CycleIteratorState)
  | err (e : PyErr)
deriving DecidableEq

/-- Body of `CycleIterator.__next__` after the cycle-reset check. -/
def cycleIteratorGo (s : CycleIteratorState) : CycStep :=
  if s.currentColumn = -1 then
    match s.nodes.get? 0 with
    | none => .err .indexError
    | some n => .next [getNodeText s n] { s with currentColumn := s.currentColumn + 1 }
  else
    match cycleScan s s.currentColumn.toNat with
    | .error e => .err e
    | .ok (batch, col) => .next batch { s with currentColumn := (col : Int) + 1 }

/-- `CycleIterator.__next__`: when the column pointer sits on the last
column, advance the cycle counter, stop once it reaches the bound,
otherwise reset the pointer; then produce the next batch. -/
def cycleIteratorNext (s : CycleIteratorState) : CycStep :=
  if s.currentColumn = (s.countNodes : Int) - 1 then
    let c := s.currentCycle + 1
    if s.cycles ≤ c then .stop
    else cycleIteratorGo { s with currentCycle := c, currentColumn := -1 }
  else cycleIteratorGo s

/-- Result of draining an iterator: the list of produced batches, or the
uncaught exception. -/
inductive CycRun where
  | ok (batches : List (List String))
  | err (e : PyErr)
deriving DecidableEq

/-- Drain a `CycleIterator` (`[node for node in iterator]`). -/
def cycleIteratorRun (fuel : Nat) (s : CycleIteratorState) : CycRun :=
  match fuel with
  | 0 => .err .fuelExhausted
  | f + 1 =>
    match cycleIteratorNext s with
    | .stop => .ok []
    | .err e => .err e
    | .next b s' =>
      match cycleIteratorRun f s' with
      | .ok bs => .ok (b :: bs)
      | r => r

/-- Mutable state of one `Cycle`.  The `previous` reference of the source is
fixed at construction to the cycle numbered one less and never re-linked,
so it is represented positionally by `TasksState`. -/
structure CycleState where
  cycleNumber : Nat
  currentNodes : List Node
  intraNodes : List (List Node)
deriving DecidableEq

/-- `node.split('.', 1)[0]`: the label up to the first dot. -/
def stripCycle (l : String) : String :=
  String.mk (l.toList.takeWhile (fun c => c != '.'))

/-- `Cycle._get_node_text`. -/
def cycleNodeText (c : CycleState) (n : Node) : String :=
  n ++ "." ++ toString c.cycleNumber

/-- `Cycle._next_nodes`: labels of the first remaining batch. -/
def nextNodes (c : CycleState) : List String :=
  match c.intraNodes with
  | [] => []
  | b :: _ => b.map (cycleNodeText c)

/-- Inner loop of `Cycle._remove_nodes` over a copy of one batch: for each
matching name remove it from the batch, then from `current_nodes`; removal
from `current_nodes` raises `ValueError` when the name is absent. -/
def removeNodesInBatch (names : List Node) :
    List Node → List Node → List Node → Except PyErr (List Node × List Node)
  | [], batch, cur => .ok (batch, cur)
  | n :: rest, batch, cur =>
    if n ∈ names then
      if n ∈ cur then removeNodesInBatch names rest (batch.erase n) (cur.erase n)
      else .error .valueError
    else removeNodesInBatch names rest batch cur

/-- Outer loop of `Cycle._remove_nodes`.  The source enumerates the batch
list while popping emptied batches from it, so after a pop the following
batch is skipped (the enumerate counter still advances); this index
arithmetic is reproduced exactly. -/
def removeNodesLoop (names : List Node) :
    Nat → Nat → List (List Node) → List Node → Except PyErr (List (List Node) × List Node)
  | 0, i, batches, cur =>
    if i < batches.length then .error .fuelExhausted else .ok (batches, cur)
  | k + 1, i, batches, cur =>
    if h : i < batches.length then
      let b := batches.get ⟨i, h⟩
      match removeNodesInBatch names b b cur with
      | .error e => .error e
      | .ok (b', cur') =>
        if b'.isEmpty then removeNodesLoop names k (i + 1) (batches.eraseIdx i) cur'
        else removeNodesLoop names k (i + 1) (batches.set i b') cur'
    else .ok (batches, cur)

/-- `Cycle._remove_nodes`.  The loop counter `batches.length - i` only
shrinks, so starting the bound at the list length never exhausts it. -/
def removeNodes (c : CycleState) (names : List Node) : Except PyErr CycleState :=
  match removeNodesLoop names c.intraNodes.length 0 c.intraNodes c.currentNodes with
  | .error e => .error e
  | .ok (bs, cur) => .ok { c with intraNodes := bs, currentNodes := cur }

/-- `Cycle._pop_next`. -/
def popNext (c : CycleState) : Except PyErr (List String × CycleState) :=
  let ns := nextNodes c
  match removeNodes c (ns.map stripCycle) with
  | .error e => .error e
  | .ok c' => .ok (ns, c')

/-- The source tests `interiteration_trigger_node not in self.previous.current_nodes`
where the trigger list holds the matrix entries themselves (the integer 1),
not node names: a Python `in` between an int and a list of strings is always
false, so this membership test never succeeds. -/
def pyIntInStrList (_v : Nat) (_l : List Node) : Bool := false

/-- Loop of `Cycle._pop_next_interiteration` over the trigger entries of a
row: every entry appends the candidate label and removes the node, gated by
the always-false membership test above. -/
def triggerLoop (node : Node) (label : String) (prevCur : List Node) :
    List Nat → List String → CycleState → Except PyErr (List String × CycleState)
  | [], acc, c => .ok (acc, c)
  | t :: rest, acc, c =>
    if pyIntInStrList t prevCur then triggerLoop node label prevCur rest acc c
    else
      match removeNodes c [node] with
      | .error e => .error e
      | .ok c' => triggerLoop node label prevCur rest (acc ++ [label]) c'

/-- Candidate loop of `Cycle._pop_next_interiteration`: skip a candidate
that is still unreleased in the previous cycle or was released earlier in
this same step; otherwise look up its row of the inter-iteration matrix
(`IndexError` when the matrix is too small, e.g. empty) and release the
candidate according to its trigger entries. -/
def popNextInterLoop (nodesIdx : List Node) (inter : List (List Nat))
    (prevCur : List Node) (newNames : List Node) :
    List String → List String → CycleState → Except PyErr (List String × CycleState)
  | [], acc, c => .ok (acc, c)
  | label :: rest, acc, c =>
    let node := stripCycle label
    if node ∈ prevCur ∨ node ∈ newNames then
      popNextInterLoop nodesIdx inter prevCur newNames rest acc c
    else
      match nodeIndex nodesIdx node with
      | none => .error .valueError
      | some ri =>
        match inter.get? ri with
        | none => .error .indexError
        | some row =>
          let triggers := row.filter (fun v => v == 1)
          if triggers.isEmpty then
            match removeNodes c [node] with
            | .error e => .error e
            | .ok c' =>
              popNextInterLoop nodesIdx inter prevCur newNames rest (acc ++ [label]) c'
          else
            match triggerLoop node label prevCur triggers [] c with
            | .error e => .error e
            | .ok (acc', c') =>
              popNextInterLoop nodesIdx inter prevCur newNames rest (acc ++ acc') c'

/-- `Cycle._pop_next_interiteration` for a non-first cycle. -/
def popNextInter (c : CycleState) (nodesIdx : List Node) (inter : List (List Nat))
    (prevCur : List Node) (newNodes : List String) :
    Except PyErr (List String × CycleState) :=
  popNextInterLoop nodesIdx inter prevCur (newNodes.map stripCycle) (nextNodes c) [] c

/-- State of a `TasksIterator`: the shared node list and inter-iteration
matrix, the states of all `Cycle` objects ever created (a removed cycle's
state stays readable through the fixed `previous` references), and the
list of indices still in `self.cycles`. -/
structure TasksState where
  nodesList : List Node
  interMatrix : List (List Nat)
  allCycles : List CycleState
  active : List Nat
deriving DecidableEq

/-- Placeholder for an out-of-range cycle index; never reached from the
constructor, whose indices are always in range. -/
def defaultCycle : CycleState := ⟨0, [], []⟩

/-- `TasksIterator.__init__` with the given removed-edge list.  Each
`Cycle` drains its own single-cycle `CycleIterator` over the graph. -/
def mkTasks (g : DiGraph) (cyclesRemoved : List Edge) (cycles : Nat) :
    Except PyErr TasksState :=
  if cycles = 0 then .error .valueError
  else
    match create_interiteration_matrix g.nodes cyclesRemoved with
    | none => .error .typeError
    | some inter =>
      match cycleIteratorRun (g.nodes.length + 2) (mkCycleIterator g 1 false) with
      | .err e => .error e
      | .ok batches =>
        .ok { nodesList := g.nodes
              interMatrix := inter
              allCycles := (List.range cycles).map (fun k => ⟨k, g.nodes, batches⟩)
              active := List.range cycles }

/-- One `cycle.iterate` call inside `TasksIterator.__next__`: the first
cycle pops its next intra batch (an empty pop raises `RemoveCycle`, which
drops the cycle from the active list); a later cycle runs the
inter-iteration gate against the current state of its predecessor and the
nodes already released this step. -/
def tasksCycleTurn (ts : TasksState) (idx : Nat) (acc : List String) :
    Except PyErr (TasksState × List String) :=
  let c := ts.allCycles.getD idx defaultCycle
  if idx = 0 then
    match popNext c with
    | .error e => .error e
    | .ok (ns, c') =>
      let ts' := { ts with allCycles := ts.allCycles.set idx c' }
      if ns.isEmpty then .ok ({ ts' with active := ts'.active.erase idx }, acc)
      else .ok (ts', acc ++ ns)
  else
    let prevCur := (ts.allCycles.getD (idx - 1) defaultCycle).currentNodes
    match popNextInter c ts.nodesList ts.interMatrix prevCur acc with
    | .error e => .error e
    | .ok (ns, c') => .ok ({ ts with allCycles := ts.allCycles.set idx c' }, acc ++ ns)

/-- Fold of `TasksIterator.__next__` over a snapshot of the active list. -/
def tasksTurnFold (idxs : List Nat) (ts : TasksState) (acc : List String) :
    Except PyErr (TasksState × List String) :=
  match idxs with
  | [] => .ok (ts, acc)
  | i :: rest =>
    match tasksCycleTurn ts i acc with
    | .error e => .error e
    | .ok (ts', acc') => tasksTurnFold rest ts' acc'

/-- Result of one `TasksIterator.__next__` call. -/
inductive TasksStep where
  | stop (ts : TasksState)
  | next (batch : List String) (ts : TasksState)
  | err (e : PyErr)
deriving DecidableEq

/-- `TasksIterator.__next__`. -/
def tasksNext (ts : TasksState) : TasksStep :=
  if ts.active.isEmpty then .stop ts
  else
    match tasksTurnFold ts.active ts [] with
    | .error e => .err e
    | .ok (ts', acc) =>
      if acc.isEmpty then .stop ts'
      else .next acc ts'

/-- Drain a constructed `TasksIterator`. -/
def runTasksAux (fuel : Nat) (ts : TasksState) : CycRun :=
  match fuel with
  | 0 => .err .fuelExhausted
  | f + 1 =>
    match tasksNext ts with
    | .stop _ => .ok []
    | .err e => .err e
    | .next b ts' =>
      match runTasksAux f ts' with
      | .ok bs => .ok (b :: bs)
      | r => r

/-- Construct a `TasksIterator` over a graph and removed-edge list and
iterate it to exhaustion: the batches produced, or the uncaught
exception. -/
def runTasks (fuel : Nat) (g : DiGraph) (cyclesRemoved : List Edge) (cycles : Nat) : CycRun :=
  match mkTasks g cyclesRemoved cycles with
  | .error e => .err e
  | .ok ts => runTasksAux fuel ts

/-- The spec's four-node sample: edges a→b, b→c, c→b, c→d. -/
def sampleGraph4 : DiGraph := buildGraph [("a","b"),("b","c"),("c","b"),("c","d")]

/-- The graph `decyclify` returns on `sampleGraph4` from start node a. -/
def sampleGraph4Out : DiGraph := ⟨["a","b","c","d"], [("a","b"),("b","c"),("c","d")]⟩

/-- The spec's five-node sample: edges a→b, a→e, b→c, c→b, c→d. -/
def sampleGraph5 : DiGraph := buildGraph [("a","b"),("a","e"),("b","c"),("c","b"),("c","d")]

/-- The graph `decyclify` returns on `sampleGraph5` from start node a. -/
def sampleGraph5Out : DiGraph := ⟨["a","b","e","c","d"], [("a","b"),("a","e"),("b","c"),("c","d")]⟩

/-- Four-node cycle t→x→y→s→t used to exhibit the inter-iteration gate. -/
def chainGraph : DiGraph := buildGraph [("t","x"),("x","y"),("y","s"),("s","t")]

/-- The graph `decyclify` returns on `chainGraph` from start node t. -/
def chainGraphOut : DiGraph := ⟨["t","x","y","s"], [("t","x"),("x","y"),("y","s")]⟩

/-- Graph whose first node has an incoming edge and an empty first column:
nodes a, b, c with the single edge b→a. -/
def inEdgeGraph : DiGraph := ⟨["a","b","c"], [("b","a")]⟩

/-- C5: decyclifying the graph with edges a→b, b→c, c→b, c→d from start
node a yields node order [a,b,c,d] with removed edges exactly [(c,b)]; the
intra-iteration matrix of the result and the inter-iteration matrix built
from the node list and the removed edges are the stated 4×4 matrices. -/
theorem c5_concrete_scenario :
    decyclify sampleGraph4 (some "a") = Sum.inr (sampleGraph4Out, [("c","b")]) ∧
    sampleGraph4Out.nodes = ["a","b","c","d"] ∧
    create_intraiteration_matrix sampleGraph4Out =
      [[0,0,0,0],[1,0,0,0],[0,1,0,0],[0,0,1,0]] ∧
    create_interiteration_matrix sampleGraph4Out.nodes [("c","b")] =
      some [[0,0,0,0],[0,0,1,0],[0,0,0,0],[0,0,0,0]] := by
  refine ⟨by decide, by decide, by decide, by decide⟩

/-- C3 counterexample: on the empty graph `decyclify` returns the bare
graph, not the claimed pair of the empty graph and an empty removed-edge
list. -/
theorem c3_empty_returns_bare_graph :
    decyclify (buildGraph []) none = Sum.inl (buildGraph []) ∧
    ∀ p : DiGraph × List Edge, decyclify (buildGraph []) none ≠ Sum.inr p := by
  refine ⟨rfl, fun p h => ?_⟩
  exact Sum.noConfusion h

/-- C3 amended: for every input graph with no nodes, `decyclify` returns
just that empty graph (no pair, hence no removed-edges list). -/
theorem c3_empty_graph_amended (g : DiGraph) (start : Option Node) (h : g.nodes = []) :
    decyclify g start = Sum.inl g := by
  unfold decyclify
  rw [h]

/-- C3 amended, witness at the empty graph. -/
theorem c3_empty_graph_amended_witness :
    decyclify ⟨[], []⟩ none = Sum.inl ⟨[], []⟩ :=
  c3_empty_graph_amended ⟨[], []⟩ none rfl

/-- C4: on the five-node sample decyclified from a, draining
`TasksIterator(graph, [(c,b)], cycles=2)` yields
[[a.0],[b.0,e.0,a.1],[c.0,b.1,e.1],[d.0,c.1],[d.1]] — the third batch
contains e.1, so the sequence asserted by the claim (and by the
repository's own test) is not produced. -/
theorem c4_tasks_iterator_actual :
    decyclify sampleGraph5 (some "a") = Sum.inr (sampleGraph5Out, [("c","b")]) ∧
    runTasks 10 sampleGraph5Out (("c","b") :: []) 2 =
      CycRun.ok [["a.0"], ["b.0","e.0","a.1"], ["c.0","b.1","e.1"], ["d.0","c.1"], ["d.1"]] ∧
    [["a.0"], ["b.0","e.0","a.1"], ["c.0","b.1","e.1"], ["d.0","c.1"], ["d.1"]] ≠
      [["a.0"], ["b.0","e.0","a.1"], ["c.0","b.1"], ["d.0","c.1"], ["d.1"]] := by
  refine ⟨by decide, by decide, by decide⟩

/-- C6: on the decyclified cycle t→x→y→s→t the removed back edge is (s,t),
so node t's row of the inter-iteration matrix has a set entry with trigger
node s; yet t.1 is emitted in the second batch while s.0 is only released
in the fourth — the inter-iteration gate never holds a node back, because
the source compares the matrix entries (the integer 1) with the node-name
strings of the previous cycle. -/
theorem c6_gate_violated :
    decyclify chainGraph (some "t") = Sum.inr (chainGraphOut, [("s","t")]) ∧
    create_interiteration_matrix chainGraphOut.nodes [("s","t")] =
      some [[0,0,0,1],[0,0,0,0],[0,0,0,0],[0,0,0,0]] ∧
    runTasks 10 chainGraphOut (("s","t") :: []) 2 =
      CycRun.ok [["t.0"], ["x.0","t.1"], ["y.0","x.1"], ["s.0","y.1"], ["s.1"]] ∧
    "t.1" ∈ ["x.0","t.1"] ∧ "s.0" ∉ ["t.0","x.0","t.1"] := by
  refine ⟨by decide, by decide, by decide, by decide, by decide⟩

/-- C10 counterexample: a DiGraph with nodes [a,b,c] and the single edge
b→a, with an empty removed-edge list and cycles = 2, makes the iteration
fail with an uncaught ValueError (list.remove of an absent node in
`_remove_nodes`), not the claimed IndexError. -/
theorem c10_value_error_counterexample :
    WF inEdgeGraph ∧ inEdgeGraph.nodes ≠ [] ∧
    runTasks 10 inEdgeGraph [] 2 = CycRun.err PyErr.valueError ∧
    PyErr.valueError ≠ PyErr.indexError := by
  refine ⟨by decide, by decide, by decide, by decide⟩

/-- C10 amended: on the decyclified five-node sample (an already-acyclic
graph) with an empty removed-edge list and cycles = 2,
`create_interiteration_matrix` yields the empty matrix, and draining the
`TasksIterator` raises an uncaught IndexError — at the second step, when
cycle 1's gating step indexes row 0 of the empty inter-iteration matrix. -/
theorem c10_index_error_on_empty_inter :
    create_interiteration_matrix sampleGraph5Out.nodes [] = some [] ∧
    runTasks 10 sampleGraph5Out [] 2 = CycRun.err PyErr.indexError ∧
    PyErr.indexError ≠ PyErr.fuelExhausted := by
  refine ⟨by decide, by decide, by decide⟩

/-- C9 counterexample: a node list of length one with an empty removed-edge
list gives the empty matrix, which is not 1×1. -/
theorem c9_empty_removed_not_square :
    create_interiteration_matrix ["a"] [] = some [] ∧
    ([] : List (List Nat)).length ≠ (["a"] : List Node).length := by
  refine ⟨by decide, by decide⟩

theorem zeroMatrix_dims (n : Nat) :
    (zeroMatrix n).length = n ∧ ∀ row ∈ zeroMatrix n, row.length = n := by
  constructor
  · simp [zeroMatrix]
  · intro row hrow
    simp only [zeroMatrix, List.mem_map] at hrow
    obtain ⟨i, _, rfl⟩ := hrow
    simp

theorem matSet1_dims {m : List (List Nat)} {n : Nat} (i j : Nat)
    (h1 : m.length = n) (h2 : ∀ row ∈ m, row.length = n) :
    (matSet1 m i j).length = n ∧ ∀ row ∈ matSet1 m i j, row.length = n := by
  refine ⟨by simp [matSet1, h1], ?_⟩
  intro row hrow
  by_cases hi : i < m.length
  · rcases List.mem_or_eq_of_mem_set hrow with h | h
    · exact h2 row h
    · subst h
      have hg : m.getD i [] = m.get ⟨i, hi⟩ := by
        simp [List.getD_eq_getElem?_getD, List.getElem?_eq_getElem hi]
      rw [List.length_set, hg]
      exact h2 _ (List.get_mem m i hi)
  · rw [matSet1, List.set_eq_of_length_le (Nat.le_of_not_lt hi)] at hrow
    exact h2 row hrow

theorem interFill_dims {ns : List Node} {n : Nat} :
    ∀ (cs : List Edge) (m m' : List (List Nat)),
      m.length = n → (∀ row ∈ m, row.length = n) →
      interFill ns cs m = some m' →
      m'.length = n ∧ ∀ row ∈ m', row.length = n := by
  intro cs
  induction cs with
  | nil =>
    intro m m' h1 h2 h
    simp only [interFill, Option.some.injEq] at h
    subst h; exact ⟨h1, h2⟩
  | cons e rest ih =>
    intro m m' h1 h2 h
    obtain ⟨src, tgt⟩ := e
    simp only [interFill] at h
    cases hs : nodeIndex ns src with
    | none => rw [hs] at h; simp at h
    | some si =>
      cases ht : nodeIndex ns tgt with
      | none => rw [hs, ht] at h; simp at h
      | some ti =>
        rw [hs, ht] at h
        have hd := matSet1_dims (m := m) ti si h1 h2
        exact ih _ _ hd.1 hd.2 h

/-- C9 amended: for every input graph with n nodes the intra-iteration
matrix is n×n, and for every node list of length n with a nonempty
removed-edge list on which `create_interiteration_matrix` returns a matrix
at all, that matrix is n×n.  (An empty removed-edge list instead yields the
empty matrix immediately, which is the counterexample to the claim as
stated.) -/
theorem c9_matrix_dimensions (g : DiGraph) (ns : List Node) (cs : List Edge)
    (m : List (List Nat)) (hcs : cs ≠ [])
    (hm : create_interiteration_matrix ns cs = some m) :
    ((create_intraiteration_matrix g).length = g.nodes.length ∧
      ∀ row ∈ create_intraiteration_matrix g, row.length = g.nodes.length) ∧
    (m.length = ns.length ∧ ∀ row ∈ m, row.length = ns.length) := by
  constructor
  · constructor
    · simp [create_intraiteration_matrix]
    · intro row hrow
      simp only [create_intraiteration_matrix, List.mem_map] at hrow
      obtain ⟨i, _, rfl⟩ := hrow
      simp
  · have hcs' : cs.isEmpty = false := by
      cases cs with
      | nil => exact absurd rfl hcs
      | cons a l => rfl
    rw [create_interiteration_matrix, hcs'] at hm
    simp only [Bool.false_eq_true, if_false] at hm
    by_cases hn : ns.length = 0
    · rw [if_pos hn] at hm
      injection hm with hm
      subst hm
      refine ⟨by simp [hn], ?_⟩
      intro row hrow
      simp at hrow
    · rw [if_neg hn] at hm
      have z := zeroMatrix_dims ns.length
      exact interFill_dims cs _ m z.1 z.2 hm

/-- C9 amended, witness: the two-node list with the removed edge (b,a)
produces the 2×2 matrix with the (a,b) cell set. -/
theorem c9_matrix_dimensions_witness :
    ([("b","a")] : List Edge) ≠ [] ∧
    create_interiteration_matrix ["a","b"] [("b","a")] = some [[0,1],[0,0]] ∧
    (([[0,1],[0,0]] : List (List Nat)).length = (["a","b"] : List Node).length ∧
      ∀ row ∈ ([[0,1],[0,0]] : List (List Nat)), row.length = (["a","b"] : List Node).length) :=
  ⟨by decide, by decide,
    (c9_matrix_dimensions sampleGraph4 ["a","b"] [("b","a")] [[0,1],[0,0]]
      (by decide) (by decide)).2⟩

/-- Result of the (n+1)-st `__next__` call of a `CycleIterator`, after n
batch-returning calls. -/
def cycleIteratorNextAfter : Nat → CycleIteratorState → CycStep
  | 0, s => cycleIteratorNext s
  | n + 1, s =>
    match cycleIteratorNext s with
    | CycStep.next _ s' => cycleIteratorNextAfter n s'
    | r => r

/-- Acyclic graph (nodes a, b, c, single edge a→b) whose two trailing
matrix columns are all zero. -/
def colScanGraph : DiGraph := ⟨["a","b","c"], [("a","b")]⟩

/-- Column `col` of the matrix holds no 1 entry in the first `count` rows. -/
def columnEmpty (m : List (List Nat)) (count col : Nat) : Prop :=
  ∀ r, r < count → matGet m r col ≠ some 1

instance (m : List (List Nat)) (count col : Nat) : Decidable (columnEmpty m count col) := by
  unfold columnEmpty; infer_instance

/-- C8 counterexample: on the graph with nodes [a,b,c] and the single edge
a→b (cycles = 1), the third `__next__` call neither returns a batch nor
signals end of iteration: the empty-column skip loop walks past the end of
the matrix and the access raises IndexError. -/
theorem c8_scan_overrun_counterexample :
    WF colScanGraph ∧
    cycleIteratorNextAfter 2 (mkCycleIterator colScanGraph 1 true) =
      CycStep.err PyErr.indexError ∧
    (∀ b s', CycStep.err PyErr.indexError ≠ CycStep.next b s') ∧
    CycStep.err PyErr.indexError ≠ CycStep.stop := by
  refine ⟨by decide, by decide, fun b s' h => CycStep.noConfusion h, fun h => CycStep.noConfusion h⟩

theorem collectColumn_total (s : CycleIteratorState)
    (hmat : s.matrix.length = s.countNodes)
    (hrows : ∀ row ∈ s.matrix, row.length = s.countNodes)
    (hnodes : s.nodes.length = s.countNodes) (col : Nat) (hcol : col < s.countNodes) :
    ∀ l : List Nat, (∀ r ∈ l, r < s.countNodes) →
      ∃ out, collectColumn s col l = Except.ok out ∧
        (out = [] ↔ ∀ r ∈ l, matGet s.matrix r col ≠ some 1) := by
  intro l
  induction l with
  | nil => intro _; exact ⟨[], rfl, by simp⟩
  | cons r rest ih =>
    intro hl
    have hr : r < s.countNodes := hl r (by simp)
    have hr' : r < s.matrix.length := by omega
    have hrow : s.matrix[r] ∈ s.matrix := List.getElem_mem hr'
    have hlen : (s.matrix[r]).length = s.countNodes := hrows _ hrow
    have hcol' : col < (s.matrix[r]).length := by omega
    have hv : matGet s.matrix r col = some (s.matrix[r][col]) := by
      simp [matGet, List.getElem?_eq_getElem hr', List.getElem?_eq_getElem hcol']
    set v := s.matrix[r][col] with hvdef
    obtain ⟨out, hout, hiff⟩ := ih (fun x hx => hl x (by simp [hx]))
    by_cases h1 : v = 1
    · have hn' : r < s.nodes.length := by omega
      refine ⟨getNodeText s (s.nodes[r]) :: out, ?_, ?_⟩
      · simp [collectColumn, hv, h1, List.getElem?_eq_getElem hn', hout]
      · constructor
        · intro h; exact absurd h (by simp)
        · intro h
          exact absurd (h r (by simp)) (by rw [hv, h1]; simp)
    · refine ⟨out, ?_, ?_⟩
      · simp only [collectColumn, hv, if_neg h1, hout]
      · rw [hiff]
        constructor
        · intro h x hx
          rcases List.mem_cons.mp hx with hx | hx
          · subst hx; rw [hv]; simp [h1]
          · exact h x hx
        · intro h x hx; exact h x (by simp [hx])

theorem cycleScanAux_charac (s : CycleIteratorState)
    (hmat : s.matrix.length = s.countNodes)
    (hrows : ∀ row ∈ s.matrix, row.length = s.countNodes)
    (hnodes : s.nodes.length = s.countNodes) :
    ∀ remaining col, s.countNodes - col = remaining →
      ((cycleScanAux s remaining col = Except.error PyErr.indexError ↔
          ∀ j, col ≤ j → j < s.countNodes → columnEmpty s.matrix s.countNodes j) ∧
        (∀ e, cycleScanAux s remaining col = Except.error e → e = PyErr.indexError)) := by
  intro remaining
  induction remaining with
  | zero =>
    intro col hcnt
    constructor
    · simp only [cycleScanAux, true_iff]
      intro j hj1 hj2
      omega
    · intro e he
      simp only [cycleScanAux, Except.error.injEq] at he
      exact he.symm
  | succ r ih =>
    intro col hcnt
    have hcol : col < s.countNodes := by omega
    obtain ⟨out, hout, hiff⟩ :=
      collectColumn_total s hmat hrows hnodes col hcol (List.range s.countNodes)
        (fun x hx => List.mem_range.mp hx)
    by_cases hempty : out = []
    · subst hempty
      have hcur : columnEmpty s.matrix s.countNodes col := by
        intro x hx
        exact hiff.mp rfl x (List.mem_range.mpr hx)
      have hrec := ih (col + 1) (by omega)
      constructor
      · rw [show cycleScanAux s (r + 1) col = cycleScanAux s r (col + 1) by
          simp only [cycleScanAux, hout]]
        rw [hrec.1]
        constructor
        · intro h j hj1 hj2
          rcases Nat.eq_or_lt_of_le hj1 with h' | h'
          · subst h'; exact hcur
          · exact h j h' hj2
        · intro h j hj1 hj2
          exact h j (by omega) hj2
      · intro e he
        rw [show cycleScanAux s (r + 1) col = cycleScanAux s r (col + 1) by
          simp only [cycleScanAux, hout]] at he
        exact hrec.2 e he
    · have hstep : cycleScanAux s (r + 1) col = Except.ok (out, col) := by
        cases out with
        | nil => exact absurd rfl hempty
        | cons a l => simp only [cycleScanAux, hout]
      constructor
      · rw [hstep]
        constructor
        · intro h; exact absurd h (by simp)
        · intro h
          have := (hiff.mpr (fun x hx => h col (Nat.le_refl col) hcol x (List.mem_range.mp hx)))
          exact absurd this hempty
      · intro e he
        rw [hstep] at he
        exact Except.noConfusion he

/-- C8 amended: for a well-formed iterator state (square matrix, matching
node list, at least one node, column pointer in the interval [-1, count-1]),
a `__next__` call raises IndexError exactly when the column pointer is
nonnegative, strictly before the reset position count-1, and every column
from the pointer to the end of the matrix is empty — the skip loop then
walks past the matrix end instead of signalling end of iteration.  In every
other situation the call returns a batch or signals end of iteration, and
IndexError is the only error a call can raise. -/
theorem c8_next_characterization (s : CycleIteratorState)
    (hmat : s.matrix.length = s.countNodes)
    (hrows : ∀ row ∈ s.matrix, row.length = s.countNodes)
    (hnodes : s.nodes.length = s.countNodes)
    (hn : 1 ≤ s.countNodes)
    (hlo : -1 ≤ s.currentColumn) (hhi : s.currentColumn ≤ (s.countNodes : Int) - 1) :
    (cycleIteratorNext s = CycStep.err PyErr.indexError ↔
      (0 ≤ s.currentColumn ∧ s.currentColumn < (s.countNodes : Int) - 1 ∧
        ∀ j : Nat, s.currentColumn.toNat ≤ j → j < s.countNodes →
          columnEmpty s.matrix s.countNodes j)) ∧
    ∀ e, cycleIteratorNext s = CycStep.err e → e = PyErr.indexError := by
  have h0 : 0 < s.nodes.length := by omega
  have hget0 : s.nodes.get? 0 = some (s.nodes.get ⟨0, h0⟩) := List.get?_eq_get h0
  by_cases hend : s.currentColumn = (s.countNodes : Int) - 1
  · simp only [cycleIteratorNext, if_pos hend]
    by_cases hstop : s.cycles ≤ s.currentCycle + 1
    · rw [if_pos hstop]
      exact ⟨⟨fun h => CycStep.noConfusion h, fun h => absurd h.2.1 (by omega)⟩,
        fun e he => CycStep.noConfusion he⟩
    · rw [if_neg hstop]
      simp only [cycleIteratorGo, if_pos rfl, hget0]
      exact ⟨⟨fun h => CycStep.noConfusion h, fun h => absurd h.2.1 (by omega)⟩,
        fun e he => CycStep.noConfusion he⟩
  · simp only [cycleIteratorNext, if_neg hend]
    by_cases hneg : s.currentColumn = -1
    · simp only [cycleIteratorGo, if_pos hneg, hget0]
      exact ⟨⟨fun h => CycStep.noConfusion h, fun h => absurd h.1 (by omega)⟩,
        fun e he => CycStep.noConfusion he⟩
    · have hpos : 0 ≤ s.currentColumn := by omega
      have hlt : s.currentColumn < (s.countNodes : Int) - 1 := by omega
      simp only [cycleIteratorGo, if_neg hneg]
      have hchar := cycleScanAux_charac s hmat hrows hnodes
        (s.countNodes - s.currentColumn.toNat) s.currentColumn.toNat rfl
      cases hscan : cycleScan s s.currentColumn.toNat with
      | error e =>
        have hscan2 : cycleScanAux s (s.countNodes - s.currentColumn.toNat)
            s.currentColumn.toNat = Except.error e := hscan
        have he : e = PyErr.indexError := hchar.2 e hscan2
        subst he
        constructor
        · constructor
          · intro _
            exact ⟨hpos, hlt, hchar.1.mp hscan2⟩
          · intro _
            rfl
        · intro e' he'
          have he'' : CycStep.err PyErr.indexError = CycStep.err e' := he'
          injection he'' with h
          exact h.symm
      | ok p =>
        obtain ⟨batch, c'⟩ := p
        have hscan2 : cycleScanAux s (s.countNodes - s.currentColumn.toNat)
            s.currentColumn.toNat = Except.ok (batch, c') := hscan
        refine ⟨⟨fun h => CycStep.noConfusion h, fun h => ?_⟩,
          fun e he => CycStep.noConfusion he⟩
        have hthis := hchar.1.mpr h.2.2
        rw [hscan2] at hthis
        exact Except.noConfusion hthis

/-- C8 amended, witness: the `colScanGraph` iterator state reached after
two batches (column pointer 1, columns 1 and 2 empty) satisfies the error
condition, so the next call raises IndexError. -/
theorem c8_next_characterization_witness :
    cycleIteratorNext ⟨[[0,0,0],[1,0,0],[0,0,0]], ["a","b","c"], 3, 1, true, 0, 1⟩ =
      CycStep.err PyErr.indexError := by
  have h := c8_next_characterization ⟨[[0,0,0],[1,0,0],[0,0,0]], ["a","b","c"], 3, 1, true, 0, 1⟩
    (by decide) (by decide) (by decide) (by decide) (by decide) (by decide)
  refine h.1.mpr ⟨by decide, by decide, ?_⟩
  intro j hj1 hj2
  have h1 : (1 : Nat) ≤ j := hj1
  have h2 : j < 3 := hj2
  have hj : j = 1 ∨ j = 2 := by omega
  rcases hj with rfl | rfl
  · decide
  · decide

/-- Position of the first occurrence of a node in a list; used to read
ranks off the ghost `blacks` list. -/
def posOf (a : Node) : List Node → Nat
  | [] => 0
  | b :: l => if b = a then 0 else posOf a l + 1

theorem posOf_append_of_mem {a : Node} :
    ∀ {l : List Node} (t : List Node), a ∈ l → posOf a (l ++ t) = posOf a l := by
  intro l
  induction l with
  | nil => intro t h; cases h
  | cons b l ih =>
    intro t h
    by_cases hb : b = a
    · simp [posOf, hb]
    · have ha : a ∈ l := by
        rcases List.mem_cons.mp h with h' | h'
        · exact absurd h'.symm hb
        · exact h'
      simp [posOf, hb, ih t ha]

theorem posOf_lt_length {a : Node} : ∀ {l : List Node}, a ∈ l → posOf a l < l.length := by
  intro l
  induction l with
  | nil => intro h; cases h
  | cons b l ih =>
    intro h
    by_cases hb : b = a
    · simp [posOf, hb]
    · have ha : a ∈ l := by
        rcases List.mem_cons.mp h with h' | h'
        · exact absurd h'.symm hb
        · exact h'
      simp only [posOf, hb, if_false, List.length_cons]
      exact Nat.succ_lt_succ (ih ha)

theorem posOf_append_self {a : Node} :
    ∀ {l : List Node}, a ∉ l → posOf a (l ++ [a]) = l.length := by
  intro l
  induction l with
  | nil => intro _; simp [posOf]
  | cons b l ih =>
    intro h
    have hb : ¬ b = a := fun hba => h (by rw [hba]; exact List.mem_cons_self a l)
    have ha : a ∉ l := fun hal => h (List.mem_cons_of_mem b hal)
    simp [posOf, hb, ih ha]

/-- Number of white nodes among `ns`; the `_dfs_visit` recursion depth is
bounded by it. -/
def countWhite (ns : List Node) (c : Node → Color) : Nat :=
  (ns.filter (fun n => c n == Color.white)).length

theorem countWhite_le (ns : List Node) (c : Node → Color) :
    countWhite ns c ≤ ns.length :=
  List.length_filter_le _ _

theorem countWhite_pos {ns : List Node} {c : Node → Color} {u : Node}
    (hu : u ∈ ns) (hw : c u = Color.white) : 1 ≤ countWhite ns c := by
  induction ns with
  | nil => cases hu
  | cons n rest ih =>
    rcases List.mem_cons.mp hu with h | h
    · subst h
      simp [countWhite, List.filter_cons, hw]
    · by_cases hn : c n = Color.white
      · simp [countWhite, List.filter_cons, hn]
      · have hn' : (c n == Color.white) = false := by
          simp [hn]
        simpa [countWhite, List.filter_cons, hn'] using ih h

theorem countWhite_mono {c c' : Node → Color}
    (h : ∀ n, c' n = Color.white → c n = Color.white) :
    ∀ ns, countWhite ns c' ≤ countWhite ns c := by
  intro ns
  induction ns with
  | nil => exact Nat.le_refl 0
  | cons n rest ih =>
    by_cases h1 : c' n = Color.white
    · have h2 := h n h1
      simp only [countWhite, List.filter_cons, h1, h2]
      simpa [countWhite] using Nat.succ_le_succ ih
    · by_cases h2 : c n = Color.white
      · have h1' : (c' n == Color.white) = false := by simp [h1]
        simp only [countWhite, List.filter_cons, h1', h2]
        simp only [if_true, List.length_cons, beq_self_eq_true]
        calc (rest.filter (fun n => c' n == Color.white)).length
            ≤ (rest.filter (fun n => c n == Color.white)).length := ih
          _ ≤ (rest.filter (fun n => c n == Color.white)).length + 1 := Nat.le_succ _
      · have h1' : (c' n == Color.white) = false := by simp [h1]
        have h2' : (c n == Color.white) = false := by simp [h2]
        simpa [countWhite, List.filter_cons, h1', h2'] using ih

theorem countWhite_update_gray {ns : List Node} {c : Node → Color} {u : Node}
    (hu : u ∈ ns) (hw : c u = Color.white) :
    countWhite ns (fun x => if x = u then Color.gray else c x) + 1 ≤ countWhite ns c := by
  induction ns with
  | nil => cases hu
  | cons n rest ih =>
    have hmono : ∀ x, (if x = u then Color.gray else c x) = Color.white → c x = Color.white := by
      intro x hx
      by_cases hxu : x = u
      · rw [if_pos hxu] at hx; cases hx
      · rwa [if_neg hxu] at hx
    by_cases hn : n = u
    · have e1 : ((if n = u then Color.gray else c n) == Color.white) = false := by
        rw [if_pos hn]; decide
      have e2 : (c n == Color.white) = true := by rw [hn, hw]; rfl
      simp only [countWhite, List.filter_cons, e1, if_false, e2, if_true, List.length_cons,
        Bool.false_eq_true]
      exact Nat.succ_le_succ (countWhite_mono hmono rest)
    · have e1 : ((if n = u then Color.gray else c n) == Color.white) = (c n == Color.white) := by
        rw [if_neg hn]
      have hu' : u ∈ rest := by
        rcases List.mem_cons.mp hu with h | h
        · exact absurd h.symm hn
        · exact h
      have ihr := ih hu'
      simp only [countWhite, List.filter_cons, e1] at ihr ⊢
      by_cases hcn : (c n == Color.white) = true
      · simp only [hcn, if_true, List.length_cons]
        omega
      · have hcn' : (c n == Color.white) = false := by
          cases hb : (c n == Color.white)
          · rfl
          · exact absurd hb hcn
        simp only [hcn', if_false, Bool.false_eq_true]
        exact ihr

theorem adjOf_mem {es : List Edge} {u v : Node} (h : v ∈ adjOf es u) : (u, v) ∈ es := by
  simp only [adjOf, List.mem_map] at h
  obtain ⟨e, he, hev⟩ := h
  have := List.mem_filter.mp he
  have h1 : e.1 = u := by
    have := this.2
    simpa using this
  have : e = (u, v) := by
    cases e
    simp only at h1 hev
    rw [h1, hev]
  rw [← this]
  exact (List.mem_filter.mp he).1

theorem mem_adjOf {es : List Edge} {u v : Node} (h : (u, v) ∈ es) : v ∈ adjOf es u := by
  simp only [adjOf, List.mem_map]
  exact ⟨(u, v), List.mem_filter.mpr ⟨h, by simp⟩, rfl⟩

theorem removeEdge_subset (es : List Edge) (u v : Node) : removeEdge es u v ⊆ es :=
  fun _e he => (List.mem_filter.mp he).1

theorem removeEdge_not_mem (es : List Edge) (u v : Node) : (u, v) ∉ removeEdge es u v := by
  intro h
  have := (List.mem_filter.mp h).2
  simp at this

/-- Invariant carried by every state of `_dfs_visit`, relative to the node
list `ns` and original edge list `orig` of the graph: the ghost `blacks`
list mirrors the black color, edges and recorded back edges come from the
original graph, a recorded back edge is gone from the graph for good, and
every surviving edge out of a black node points at a node painted black
earlier. -/
structure DfsInv (ns : List Node) (orig : List Edge) (s : DfsState) : Prop where
  black_mem : ∀ n, s.color n = Color.black ↔ n ∈ s.blacks
  blacks_nodup : s.blacks.Nodup
  edges_orig : s.edges ⊆ orig
  removed_orig : ∀ e ∈ s.removed, e ∈ orig
  removed_gone : ∀ e ∈ s.removed, e ∉ s.edges
  edge_black : ∀ e ∈ s.edges, s.color e.1 = Color.black →
    s.color e.2 = Color.black ∧ posOf e.2 s.blacks < posOf e.1 s.blacks

/-- What one (part of a) visit does to a state: edges only shrink, the
ghost black list only grows at the end, the gray set is untouched, and no
node turns white. -/
structure DfsPost (s s' : DfsState) : Prop where
  edges_sub : s'.edges ⊆ s.edges
  blacks_ext : ∃ t, s'.blacks = s.blacks ++ t
  gray_iff : ∀ n, s'.color n = Color.gray ↔ s.color n = Color.gray
  white_to : ∀ n, s'.color n = Color.white → s.color n = Color.white

theorem DfsPost.rfl (s : DfsState) : DfsPost s s :=
  ⟨fun _ h => h, ⟨[], (List.append_nil _).symm⟩, fun _ => Iff.rfl, fun _ h => h⟩

theorem DfsPost.trans {s s' s'' : DfsState} (h1 : DfsPost s s') (h2 : DfsPost s' s'') :
    DfsPost s s'' := by
  refine ⟨fun e he => h1.edges_sub (h2.edges_sub he), ?_, ?_, ?_⟩
  · obtain ⟨t1, ht1⟩ := h1.blacks_ext
    obtain ⟨t2, ht2⟩ := h2.blacks_ext
    exact ⟨t1 ++ t2, by rw [ht2, ht1, List.append_assoc]⟩
  · intro n; exact (h2.gray_iff n).trans (h1.gray_iff n)
  · intro n h; exact h1.white_to n (h2.white_to n h)

theorem DfsInv.trees_irrel {ns orig} {s : DfsState} (h : DfsInv ns orig s) (t : List Edge) :
    DfsInv ns orig { s with trees := t } :=
  ⟨h.black_mem, h.blacks_nodup, h.edges_orig, h.removed_orig, h.removed_gone, h.edge_black⟩

theorem DfsPost.trees_left {s : DfsState} (t : List Edge) {s' : DfsState}
    (h : DfsPost { s with trees := t } s') : DfsPost s s' :=
  ⟨h.edges_sub, h.blacks_ext, h.gray_iff, h.white_to⟩

theorem black_persist {ns orig} {s s' : DfsState} (h : DfsInv ns orig s) (h' : DfsInv ns orig s')
    (hp : DfsPost s s') {n : Node} (hb : s.color n = Color.black) :
    s'.color n = Color.black := by
  have hm := (h.black_mem n).mp hb
  obtain ⟨t, ht⟩ := hp.blacks_ext
  exact (h'.black_mem n).mpr (by rw [ht]; exact List.mem_append_left t hm)

/-- Specification of the successor loop: given a specification for the
recursive visit (at whatever fuel it was handed), walking a successor
snapshot preserves the invariant and the post relation, and leaves every
snapshot node either disconnected from `u` or black. -/
theorem dfsList_spec (ns : List Node) (orig : List Edge)
    (hwf : ∀ e ∈ orig, e.1 ∈ ns ∧ e.2 ∈ ns)
    (visit : DfsState → Node → DfsState) (F : Nat)
    (hvisit : ∀ s u, DfsInv ns orig s → u ∈ ns → s.color u = Color.white →
      countWhite ns s.color ≤ F →
      (DfsInv ns orig (visit s u) ∧ DfsPost s (visit s u)) ∧
        (visit s u).color u = Color.black) :
    ∀ vs s u, DfsInv ns orig s → s.color u = Color.gray →
      (∀ v ∈ vs, (u, v) ∈ orig) → countWhite ns s.color ≤ F →
      (DfsInv ns orig (dfsListF visit u vs s) ∧ DfsPost s (dfsListF visit u vs s)) ∧
      (∀ v ∈ vs, (u, v) ∉ (dfsListF visit u vs s).edges ∨
        (dfsListF visit u vs s).color v = Color.black) := by
  intro vs
  induction vs with
  | nil =>
    intro s u hInv _ _ _
    exact ⟨⟨hInv, DfsPost.rfl s⟩, by intro v hv; cases hv⟩
  | cons v rest ih =>
    intro s u hInv hgray hvs hcw
    cases hc : s.color v with
    | white =>
      have hv_orig : (u, v) ∈ orig := hvs v (List.mem_cons_self v rest)
      have hv_ns : v ∈ ns := (hwf (u, v) hv_orig).2
      have hInvT : DfsInv ns orig { s with trees := s.trees ++ [(u, v)] } :=
        hInv.trees_irrel _
      obtain ⟨⟨hInv1, hPost1⟩, hblackv⟩ :=
        hvisit { s with trees := s.trees ++ [(u, v)] } v hInvT hv_ns hc hcw
      have hPost1' : DfsPost s (visit { s with trees := s.trees ++ [(u, v)] } v) :=
        DfsPost.trees_left _ hPost1
      have hgray1 : (visit { s with trees := s.trees ++ [(u, v)] } v).color u = Color.gray :=
        (hPost1'.gray_iff u).mpr hgray
      have hcw1 : countWhite ns (visit { s with trees := s.trees ++ [(u, v)] } v).color ≤ F :=
        Nat.le_trans (countWhite_mono hPost1'.white_to ns) hcw
      obtain ⟨⟨hInv2, hPost2⟩, hrest⟩ :=
        ih (visit { s with trees := s.trees ++ [(u, v)] } v) u hInv1 hgray1
          (fun w hw => hvs w (List.mem_cons_of_mem v hw)) hcw1
      have hfin : dfsListF visit u (v :: rest) s =
          dfsListF visit u rest (visit { s with trees := s.trees ++ [(u, v)] } v) := by
        simp only [dfsListF, hc]
      rw [hfin]
      refine ⟨⟨hInv2, hPost1'.trans hPost2⟩, ?_⟩
      intro w hw
      rcases List.mem_cons.mp hw with hw | hw
      · subst hw
        exact Or.inr (black_persist hInv1 hInv2 hPost2 hblackv)
      · exact hrest w hw
    | gray =>
      have hv_orig : (u, v) ∈ orig := hvs v (List.mem_cons_self v rest)
      set s' : DfsState :=
        { s with edges := removeEdge s.edges u v, removed := s.removed ++ [(u, v)] } with hs'
      have hInv' : DfsInv ns orig s' := by
        refine ⟨hInv.black_mem, hInv.blacks_nodup,
          fun e he => hInv.edges_orig (removeEdge_subset _ _ _ he), ?_, ?_, ?_⟩
        · intro e he
          rcases List.mem_append.mp he with he | he
          · exact hInv.removed_orig e he
          · rw [List.mem_singleton.mp he]
            exact hv_orig
        · intro e he
          rcases List.mem_append.mp he with he | he
          · exact fun hmem => hInv.removed_gone e he (removeEdge_subset _ _ _ hmem)
          · rw [List.mem_singleton.mp he]
            exact removeEdge_not_mem _ _ _
        · intro e he hb
          exact hInv.edge_black e (removeEdge_subset _ _ _ he) hb
      have hPost' : DfsPost s s' :=
        ⟨fun e he => removeEdge_subset _ _ _ he, ⟨[], (List.append_nil _).symm⟩,
          fun _ => Iff.rfl, fun _ h => h⟩
      obtain ⟨⟨hInv2, hPost2⟩, hrest⟩ :=
        ih s' u hInv' hgray (fun w hw => hvs w (List.mem_cons_of_mem v hw)) hcw
      have hfin : dfsListF visit u (v :: rest) s = dfsListF visit u rest s' := by
        simp only [dfsListF, hc]
      rw [hfin]
      refine ⟨⟨hInv2, hPost'.trans hPost2⟩, ?_⟩
      intro w hw
      rcases List.mem_cons.mp hw with hw | hw
      · subst hw
        exact Or.inl (fun hmem => removeEdge_not_mem s.edges u w (hPost2.edges_sub hmem))
      · exact hrest w hw
    | black =>
      obtain ⟨⟨hInv2, hPost2⟩, hrest⟩ :=
        ih s u hInv hgray (fun w hw => hvs w (List.mem_cons_of_mem v hw)) hcw
      have hfin : dfsListF visit u (v :: rest) s = dfsListF visit u rest s := by
        simp only [dfsListF, hc]
      rw [hfin]
      refine ⟨⟨hInv2, hPost2⟩, ?_⟩
      intro w hw
      rcases List.mem_cons.mp hw with hw | hw
      · subst hw
        exact Or.inr (black_persist hInv hInv2 hPost2 hc)
      · exact hrest w hw

/-- Specification of `_dfs_visit` on a white node with sufficient fuel: the
invariant and the post relation hold, and the visited node ends black. -/
theorem dfsVisit_spec (ns : List Node) (orig : List Edge)
    (hwf : ∀ e ∈ orig, e.1 ∈ ns ∧ e.2 ∈ ns) :
    ∀ fuel : Nat, ∀ s u, DfsInv ns orig s → u ∈ ns → s.color u = Color.white →
      countWhite ns s.color ≤ fuel →
      (DfsInv ns orig (dfsVisit fuel s u) ∧ DfsPost s (dfsVisit fuel s u)) ∧
      (dfsVisit fuel s u).color u = Color.black := by
  intro fuel
  induction fuel with
  | zero =>
    intro s u hInv hu hw hcw
    exfalso
    have := countWhite_pos hu hw
    omega
  | succ f ih =>
    intro s u hInv hu hw hcw
    set s1 : DfsState :=
      { s with color := fun x => if x = u then Color.gray else s.color x } with hs1
    have hcol1 : ∀ n, s1.color n = if n = u then Color.gray else s.color n := fun n => rfl
    have hgray1 : s1.color u = Color.gray := by rw [hcol1, if_pos rfl]
    have hInv1 : DfsInv ns orig s1 := by
      refine ⟨?_, hInv.blacks_nodup, hInv.edges_orig, hInv.removed_orig,
        hInv.removed_gone, ?_⟩
      · intro n
        rw [hcol1]
        by_cases hn : n = u
        · subst hn
          rw [if_pos rfl]
          constructor
          · intro h; exact Color.noConfusion h
          · intro h
            have hb := (hInv.black_mem n).mpr h
            rw [hw] at hb
            exact Color.noConfusion hb
        · rw [if_neg hn]; exact hInv.black_mem n
      · intro e he hb
        rw [hcol1] at hb
        by_cases h1 : e.1 = u
        · rw [if_pos h1] at hb; exact Color.noConfusion hb
        · rw [if_neg h1] at hb
          have h2 := hInv.edge_black e he hb
          refine ⟨?_, h2.2⟩
          rw [hcol1]
          have he2 : ¬ e.2 = u := by
            intro hh
            have hb2 := h2.1
            rw [hh, hw] at hb2
            exact Color.noConfusion hb2
          rw [if_neg he2]; exact h2.1
    have hcw1 : countWhite ns s1.color ≤ f := by
      have h2 : countWhite ns s1.color + 1 ≤ countWhite ns s.color :=
        countWhite_update_gray hu hw
      omega
    have hvs : ∀ v ∈ adjOf s1.edges u, (u, v) ∈ orig := fun v hv =>
      hInv.edges_orig (adjOf_mem hv)
    obtain ⟨⟨hInv2, hPost2⟩, hlist⟩ :=
      dfsList_spec ns orig hwf (dfsVisit f) f ih (adjOf s1.edges u) s1 u hInv1 hgray1 hvs hcw1
    set s2 := dfsListF (dfsVisit f) u (adjOf s1.edges u) s1 with hs2
    have hgray2 : s2.color u = Color.gray := (hPost2.gray_iff u).mpr hgray1
    have hub : u ∉ s2.blacks := by
      intro hm
      have hb := (hInv2.black_mem u).mpr hm
      rw [hgray2] at hb
      exact Color.noConfusion hb
    set s3 : DfsState :=
      { s2 with color := fun x => if x = u then Color.black else s2.color x,
                blacks := s2.blacks ++ [u] } with hs3
    have hcol3 : ∀ n, s3.color n = if n = u then Color.black else s2.color n := fun n => rfl
    have hInv3 : DfsInv ns orig s3 := by
      refine ⟨?_, ?_, hInv2.edges_orig, hInv2.removed_orig, hInv2.removed_gone, ?_⟩
      · intro n
        rw [hcol3]
        by_cases hn : n = u
        · subst hn
          rw [if_pos rfl]
          exact iff_of_true rfl (List.mem_append_right _ (List.mem_singleton_self n))
        · rw [if_neg hn]
          constructor
          · intro h
            exact List.mem_append_left _ ((hInv2.black_mem n).mp h)
          · intro h
            rcases List.mem_append.mp h with h | h
            · exact (hInv2.black_mem n).mpr h
            · exact absurd (List.mem_singleton.mp h) hn
      · rw [List.nodup_append]
        exact ⟨hInv2.blacks_nodup, List.nodup_singleton u,
          fun a ha hb => hub (by rw [← List.mem_singleton.mp hb]; exact ha)⟩
      · intro e he hb
        obtain ⟨a, b⟩ := e
        rw [hcol3] at hb
        by_cases h1 : a = u
        · have he' : (a, b) ∈ s2.edges := he
          have hadj : b ∈ adjOf s1.edges u := h1 ▸ mem_adjOf (hPost2.edges_sub he')
          have hb2 : s2.color b = Color.black := by
            rcases hlist b hadj with h | h
            · exact absurd (h1 ▸ he') h
            · exact h
          have hbu : ¬ b = u := by
            intro hh
            rw [hh, hgray2] at hb2
            exact Color.noConfusion hb2
          constructor
          · rw [hcol3, if_neg hbu]
            exact hb2
          · have hmem : b ∈ s2.blacks := (hInv2.black_mem b).mp hb2
            show posOf b (s2.blacks ++ [u]) < posOf a (s2.blacks ++ [u])
            rw [h1, posOf_append_of_mem _ hmem, posOf_append_self hub]
            exact posOf_lt_length hmem
        · rw [if_neg h1] at hb
          have h2 := hInv2.edge_black (a, b) he hb
          have hb2 : ¬ b = u := by
            intro hh
            have := h2.1
            rw [hh, hgray2] at this
            exact Color.noConfusion this
          constructor
          · rw [hcol3, if_neg hb2]
            exact h2.1
          · have m1 : a ∈ s2.blacks := (hInv2.black_mem a).mp hb
            have m2 : b ∈ s2.blacks := (hInv2.black_mem b).mp h2.1
            show posOf b (s2.blacks ++ [u]) < posOf a (s2.blacks ++ [u])
            rw [posOf_append_of_mem _ m1, posOf_append_of_mem _ m2]
            exact h2.2
    have hPost3 : DfsPost s s3 := by
      refine ⟨?_, ?_, ?_, ?_⟩
      · intro e he
        exact hPost2.edges_sub he
      · obtain ⟨t, ht⟩ := hPost2.blacks_ext
        refine ⟨t ++ [u], ?_⟩
        have ht' : s2.blacks = s.blacks ++ t := ht
        show s2.blacks ++ [u] = s.blacks ++ (t ++ [u])
        rw [ht', List.append_assoc]
      · intro n
        rw [hcol3]
        by_cases hn : n = u
        · subst hn
          rw [if_pos rfl]
          constructor
          · intro h; exact Color.noConfusion h
          · intro h; rw [hw] at h; exact Color.noConfusion h
        · rw [if_neg hn]
          rw [hPost2.gray_iff n, hcol1, if_neg hn]
      · intro n h
        rw [hcol3] at h
        by_cases hn : n = u
        · rw [if_pos hn] at h; exact Color.noConfusion h
        · rw [if_neg hn] at h
          have := hPost2.white_to n h
          rw [hcol1, if_neg hn] at this
          exact this
    have hb3 : s3.color u = Color.black := by
      rw [hcol3, if_pos rfl]
    exact ⟨⟨hInv3, hPost3⟩, hb3⟩

theorem middlePass_spec {ns orig} {s : DfsState} (h : DfsInv ns orig s) :
    DfsInv ns orig (middlePass s) ∧ DfsPost s (middlePass s) := by
  constructor
  · refine ⟨h.black_mem, h.blacks_nodup, ?_, h.removed_orig, ?_, ?_⟩
    · intro e he
      exact h.edges_orig ((List.mem_filter.mp he).1)
    · intro e he hmem
      exact h.removed_gone e he ((List.mem_filter.mp hmem).1)
    · intro e he hb
      exact h.edge_black e ((List.mem_filter.mp he).1) hb
  · exact ⟨fun _e he => (List.mem_filter.mp he).1, ⟨[], (List.append_nil _).symm⟩,
      fun _ => Iff.rfl, fun _ hh => hh⟩

theorem thirdPass_spec (ns : List Node) (orig : List Edge)
    (hwf : ∀ e ∈ orig, e.1 ∈ ns ∧ e.2 ∈ ns) :
    ∀ (rest : List Node) (s : DfsState), DfsInv ns orig s →
      (∀ n, s.color n ≠ Color.gray) → (∀ v ∈ rest, v ∈ ns) →
      (DfsInv ns orig (thirdPass ns.length rest s) ∧
        DfsPost s (thirdPass ns.length rest s)) ∧
      (∀ v ∈ rest, (thirdPass ns.length rest s).color v = Color.black) ∧
      (∀ n, (thirdPass ns.length rest s).color n ≠ Color.gray) := by
  intro rest
  induction rest with
  | nil =>
    intro s hInv hng _
    refine ⟨⟨hInv, DfsPost.rfl s⟩, ?_, hng⟩
    intro v hv
    cases hv
  | cons n rest' ih =>
    intro s hInv hng hmem
    by_cases hw : s.color n = Color.white
    · have hbeq : (s.color n == Color.white) = true := by rw [hw]; rfl
      have hstep : thirdPass ns.length (n :: rest') s =
          thirdPass ns.length rest' (dfsVisit ns.length s n) := by
        simp only [thirdPass, hbeq, if_true]
      obtain ⟨⟨hInv1, hPost1⟩, hblack⟩ :=
        dfsVisit_spec ns orig hwf ns.length s n hInv (hmem n (List.mem_cons_self n rest'))
          hw (countWhite_le ns s.color)
      have hng1 : ∀ m, (dfsVisit ns.length s n).color m ≠ Color.gray := by
        intro m hm
        exact hng m ((hPost1.gray_iff m).mp hm)
      obtain ⟨⟨hInv2, hPost2⟩, hb2, hng2⟩ :=
        ih (dfsVisit ns.length s n) hInv1 hng1
          (fun v hv => hmem v (List.mem_cons_of_mem n hv))
      rw [hstep]
      refine ⟨⟨hInv2, hPost1.trans hPost2⟩, ?_, hng2⟩
      intro v hv
      rcases List.mem_cons.mp hv with hv | hv
      · subst hv
        exact black_persist hInv1 hInv2 hPost2 hblack
      · exact hb2 v hv
    · have hbeq : (s.color n == Color.white) = false := by
        cases hh : (s.color n == Color.white)
        · rfl
        · exact absurd (by simpa using hh) hw
      have hstep : thirdPass ns.length (n :: rest') s = thirdPass ns.length rest' s := by
        simp only [thirdPass, hbeq, Bool.false_eq_true, if_false]
      have hblack : s.color n = Color.black := by
        cases hcn : s.color n
        · exact absurd hcn hw
        · exact absurd hcn (hng n)
        · rfl
      obtain ⟨⟨hInv2, hPost2⟩, hb2, hng2⟩ :=
        ih s hInv hng (fun v hv => hmem v (List.mem_cons_of_mem n hv))
      rw [hstep]
      refine ⟨⟨hInv2, hPost2⟩, ?_, hng2⟩
      intro v hv
      rcases List.mem_cons.mp hv with hv | hv
      · subst hv
        exact black_persist hInv hInv2 hPost2 hblack
      · exact hb2 v hv

theorem decyclify_nil {g : DiGraph} {start : Option Node} (h : g.nodes = []) :
    decyclify g start = Sum.inl g := by
  unfold decyclify
  rw [h]

theorem decyclify_cons {g : DiGraph} {start : Option Node} {n0 : Node} {ntail : List Node}
    (h : g.nodes = n0 :: ntail) :
    decyclify g start =
      Sum.inr (⟨g.nodes,
        (thirdPass g.nodes.length g.nodes (middlePass (dfsVisit g.nodes.length
          ⟨g.edges, fun _ => Color.white, [], [], []⟩ (start.getD n0)))).edges⟩,
        (thirdPass g.nodes.length g.nodes (middlePass (dfsVisit g.nodes.length
          ⟨g.edges, fun _ => Color.white, [], [], []⟩ (start.getD n0)))).removed) := by
  unfold decyclify
  rw [h]

/-- Master lemma: a successful `decyclify` run ends in a state satisfying
the invariant with every node black; the returned graph and removed list
are read off that state. -/
theorem decyclify_master (g : DiGraph) (start : Option Node) (hwf : WF g)
    (hs : ∀ a, start = some a → a ∈ g.nodes) (gr : DiGraph) (rem : List Edge)
    (h : decyclify g start = Sum.inr (gr, rem)) :
    ∃ s3 : DfsState, gr.nodes = g.nodes ∧ gr.edges = s3.edges ∧ rem = s3.removed ∧
      DfsInv g.nodes g.edges s3 ∧ ∀ n ∈ g.nodes, s3.color n = Color.black := by
  cases hn : g.nodes with
  | nil =>
    rw [decyclify_nil hn] at h
    exact Sum.noConfusion h
  | cons n0 ntail =>
    rw [← hn]
    rw [decyclify_cons hn] at h
    injection h with h1
    injection h1 with hA hB
    subst hA
    subst hB
    have hwf' : ∀ e ∈ g.edges, e.1 ∈ g.nodes ∧ e.2 ∈ g.nodes := hwf.2.2
    set s0 : DfsState := ⟨g.edges, fun _ => Color.white, [], [], []⟩ with hs0
    have hInv0 : DfsInv g.nodes g.edges s0 := by
      refine ⟨?_, List.nodup_nil, fun e he => he, ?_, ?_, ?_⟩
      · intro n
        constructor
        · intro hb; exact Color.noConfusion hb
        · intro hb; cases hb
      · intro e he; cases he
      · intro e he; cases he
      · intro e _he hb; exact Color.noConfusion hb
    have hst : start.getD n0 ∈ g.nodes := by
      cases hstart : start with
      | none =>
        rw [hn]
        exact List.mem_cons_self _ _
      | some a =>
        have := hs a hstart
        simpa using this
    have hw0 : s0.color (start.getD n0) = Color.white := rfl
    obtain ⟨⟨hInv1, hPost1⟩, _hb1⟩ :=
      dfsVisit_spec g.nodes g.edges hwf' g.nodes.length s0 (start.getD n0) hInv0 hst hw0
        (countWhite_le _ _)
    have hng1 : ∀ n, (dfsVisit g.nodes.length s0 (start.getD n0)).color n ≠ Color.gray := by
      intro n hgn
      have := (hPost1.gray_iff n).mp hgn
      exact Color.noConfusion this
    obtain ⟨hInvM, _hPostM⟩ := middlePass_spec hInv1
    obtain ⟨⟨hInv3, _hPost3⟩, hb3, _hng3⟩ :=
      thirdPass_spec g.nodes g.edges hwf' g.nodes
        (middlePass (dfsVisit g.nodes.length s0 (start.getD n0))) hInvM hng1
        (fun v hv => hv)
    exact ⟨thirdPass g.nodes.length g.nodes
      (middlePass (dfsVisit g.nodes.length s0 (start.getD n0))), rfl, rfl, rfl, hInv3, hb3⟩

/-- Edge relation of an edge list. -/
def EdgeRel (es : List Edge) (u v : Node) : Prop := (u, v) ∈ es

/-- No nonempty directed walk returns to its start node: no cycle is
reachable from any node of the graph. -/
def Acyclic (es : List Edge) : Prop := ∀ u, ¬ Relation.TransGen (EdgeRel es) u u

theorem transGen_rank {es : List Edge} {f : Node → Nat}
    (hf : ∀ u v, EdgeRel es u v → f v < f u) :
    ∀ u v, Relation.TransGen (EdgeRel es) u v → f v < f u := by
  intro u v h
  induction h with
  | single h1 => exact hf _ _ h1
  | tail _ h1 ih => exact Nat.lt_trans (hf _ _ h1) ih

theorem acyclic_of_rank {es : List Edge} (f : Node → Nat)
    (hf : ∀ u v, EdgeRel es u v → f v < f u) : Acyclic es :=
  fun u h => Nat.lt_irrefl _ (transGen_rank hf u u h)

/-- C1: for every well-formed directed graph (a `DiGraph`, or one built
from an edge list) and admissible start node, `decyclify` returns a graph
containing no cycle reachable from any node, and every pair of the returned
removed-edges list is an edge of the original graph.  The empty-graph
branch, which returns the bare graph, is covered as well. -/
theorem c1_decyclify_acyclic (g : DiGraph) (start : Option Node) (hwf : WF g)
    (hs : ∀ a, start = some a → a ∈ g.nodes) :
    (∀ gr rem, decyclify g start = Sum.inr (gr, rem) →
      Acyclic gr.edges ∧ ∀ e ∈ rem, e ∈ g.edges) ∧
    (∀ gr, decyclify g start = Sum.inl gr → Acyclic gr.edges) := by
  constructor
  · intro gr rem h
    obtain ⟨s3, _hnodes, hedges, hrem, hInv, hblack⟩ :=
      decyclify_master g start hwf hs gr rem h
    constructor
    · apply acyclic_of_rank (fun n => posOf n s3.blacks)
      intro u v huv
      rw [EdgeRel, hedges] at huv
      have horig : (u, v) ∈ g.edges := hInv.edges_orig huv
      have hu : u ∈ g.nodes := (hwf.2.2 (u, v) horig).1
      have hb : s3.color u = Color.black := hblack u hu
      exact (hInv.edge_black (u, v) huv hb).2
    · intro e he
      rw [hrem] at he
      exact hInv.removed_orig e he
  · intro gr h
    cases hn : g.nodes with
    | nil =>
      rw [decyclify_nil hn] at h
      injection h with h1
      subst h1
      apply acyclic_of_rank (fun _ => 0)
      intro u v huv
      have := (hwf.2.2 (u, v) huv).1
      rw [hn] at this
      cases this
    | cons n0 nt =>
      rw [decyclify_cons hn] at h
      exact Sum.noConfusion h

/-- C1 witness: the four-node sample, decyclified from a, gives an acyclic
graph and removed edges drawn from the original edges. -/
theorem c1_decyclify_acyclic_witness :
    Acyclic sampleGraph4Out.edges ∧
    ∀ e ∈ ([(("c" : Node), ("b" : Node))] : List Edge), e ∈ sampleGraph4.edges := by
  have h := (c1_decyclify_acyclic sampleGraph4 (some "a") (by decide)
    (fun a ha => by rw [← Option.some.inj ha]; decide)).1
  exact h sampleGraph4Out [("c", "b")] (by decide)

/-- C2 counterexample: in the graph with edges a→b and c→b, decyclified
from the default start node a, the edge (c, b) crosses the iteration
frontier; it is dropped by the second pass without being recorded, so it
ends up neither in the returned graph nor in the removed-edges list. -/
theorem c2_edge_in_neither_counterexample :
    decyclify (buildGraph [("a","b"),("c","b")]) none =
      Sum.inr (⟨["a","b","c"], [("a","b")]⟩, []) ∧
    ("c","b") ∈ (buildGraph [("a","b"),("c","b")]).edges ∧
    ("c","b") ∉ ([("a","b")] : List Edge) ∧
    ("c","b") ∉ ([] : List Edge) := by
  refine ⟨by decide, by decide, by decide, by decide⟩

/-- C2 amended: no edge is ever in both outputs — a recorded removed edge
is gone from the returned graph for good — and both the returned graph's
edges and the removed list are drawn from the original edges; but an edge
of the original graph may appear in neither (the frontier-crossing edges
dropped by the second pass). -/
theorem c2_never_both (g : DiGraph) (start : Option Node) (hwf : WF g)
    (hs : ∀ a, start = some a → a ∈ g.nodes) :
    ∀ gr rem, decyclify g start = Sum.inr (gr, rem) →
      (∀ e ∈ rem, e ∉ gr.edges) ∧ (∀ e ∈ rem, e ∈ g.edges) ∧ gr.edges ⊆ g.edges := by
  intro gr rem h
  obtain ⟨s3, _hnodes, hedges, hrem, hInv, _hblack⟩ :=
    decyclify_master g start hwf hs gr rem h
  refine ⟨?_, ?_, ?_⟩
  · intro e he hmem
    rw [hrem] at he
    rw [hedges] at hmem
    exact hInv.removed_gone e he hmem
  · intro e he
    rw [hrem] at he
    exact hInv.removed_orig e he
  · intro e he
    rw [hedges] at he
    exact hInv.edges_orig he

/-- C2 amended, witness at the four-node sample. -/
theorem c2_never_both_witness :
    (∀ e ∈ ([(("c" : Node), ("b" : Node))] : List Edge), e ∉ sampleGraph4Out.edges) ∧
    (∀ e ∈ ([(("c" : Node), ("b" : Node))] : List Edge), e ∈ sampleGraph4.edges) ∧
    sampleGraph4Out.edges ⊆ sampleGraph4.edges := by
  exact c2_never_both sampleGraph4 (some "a") (by decide)
    (fun a ha => by rw [← Option.some.inj ha]; decide)
    sampleGraph4Out [("c", "b")] (by decide)

theorem DfsInv.gray_update {ns : List Node} {orig : List Edge} {s : DfsState} {u : Node}
    (hInv : DfsInv ns orig s) (hw : s.color u = Color.white) :
    DfsInv ns orig { s with color := fun x => if x = u then Color.gray else s.color x } := by
  refine ⟨?_, hInv.blacks_nodup, hInv.edges_orig, hInv.removed_orig, hInv.removed_gone, ?_⟩
  · intro n
    show (if n = u then Color.gray else s.color n) = Color.black ↔ _
    by_cases hn : n = u
    · subst hn
      rw [if_pos rfl]
      constructor
      · intro h; exact Color.noConfusion h
      · intro h
        have hb := (hInv.black_mem n).mpr h
        rw [hw] at hb
        exact Color.noConfusion hb
    · rw [if_neg hn]; exact hInv.black_mem n
  · intro e he hb
    have hb' : (if e.1 = u then Color.gray else s.color e.1) = Color.black := hb
    by_cases h1 : e.1 = u
    · rw [if_pos h1] at hb'; exact Color.noConfusion hb'
    · rw [if_neg h1] at hb'
      have h2 := hInv.edge_black e he hb'
      refine ⟨?_, h2.2⟩
      show (if e.2 = u then Color.gray else s.color e.2) = Color.black
      have he2 : ¬ e.2 = u := by
        intro hh
        have hb2 := h2.1
        rw [hh, hw] at hb2
        exact Color.noConfusion hb2
      rw [if_neg he2]; exact h2.1

theorem mem_removeEdge_of_ne {es : List Edge} {e : Edge} {u v : Node}
    (he : e ∈ es) (hne : e ≠ (u, v)) : e ∈ removeEdge es u v := by
  refine List.mem_filter.mpr ⟨he, ?_⟩
  obtain ⟨a, b⟩ := e
  simp only [Bool.not_eq_eq_eq_not, Bool.not_true, Bool.and_eq_false_imp]
  by_cases h1 : a = u
  · by_cases h2 : b = v
    · exact absurd (by rw [h1, h2]) hne
    · intro _
      simpa using h2
  · intro hcontra
    exact absurd (by simpa using hcontra) h1

theorem removeEdge_removed_eq {es : List Edge} {e : Edge} {u v : Node}
    (he : e ∈ es) (hgone : e ∉ removeEdge es u v) : e = (u, v) := by
  by_contra hne
  exact hgone (mem_removeEdge_of_ne he hne)

theorem removeEdge_nodup {es : List Edge} (h : es.Nodup) (u v : Node) :
    (removeEdge es u v).Nodup :=
  h.filter _

theorem adjOf_nodup {es : List Edge} (h : es.Nodup) (u : Node) : (adjOf es u).Nodup := by
  unfold adjOf
  refine (h.filter _).map_on ?_
  intro e1 h1 e2 h2 hsnd
  have ha : e1.1 = u := by
    have := (List.mem_filter.mp h1).2
    simpa using this
  have hb : e2.1 = u := by
    have := (List.mem_filter.mp h2).2
    simpa using this
  obtain ⟨a1, b1⟩ := e1
  obtain ⟨a2, b2⟩ := e2
  simp only at ha hb hsnd
  rw [ha, hb, hsnd]

/-- Invariant on the ghost `trees` list: recorded tree edges are never
removed from the graph, their sources are visited nodes, and the edge list
stays duplicate-free. -/
structure TreeInv (s : DfsState) : Prop where
  edges_nodup : s.edges.Nodup
  trees_sub : s.trees ⊆ s.edges
  trees_src : ∀ e ∈ s.trees, s.color e.1 ≠ Color.white

theorem treeInv_gray_update {s : DfsState} {u : Node} (h : TreeInv s) :
    TreeInv { s with color := fun x => if x = u then Color.gray else s.color x } := by
  refine ⟨h.edges_nodup, h.trees_sub, ?_⟩
  intro e he hw
  have hw' : (if e.1 = u then Color.gray else s.color e.1) = Color.white := hw
  by_cases h1 : e.1 = u
  · rw [if_pos h1] at hw'; exact Color.noConfusion hw'
  · rw [if_neg h1] at hw'
    exact h.trees_src e he hw'

/-- Tree-ghost specification of the successor loop, parametric in the
recursive visit and its specifications: the tree invariant is preserved,
tree edges are only appended (with sources the current node or nodes still
white), edges are only removed with sources the current node or nodes still
white, and every newly visited node is reachable from the current node over
the recorded tree edges. -/
theorem dfsListT_spec (ns : List Node) (orig : List Edge)
    (visit : DfsState → Node → DfsState) (F : Nat)
    (hvisitMain : ∀ s u, DfsInv ns orig s → u ∈ ns → s.color u = Color.white →
      countWhite ns s.color ≤ F →
      (DfsInv ns orig (visit s u) ∧ DfsPost s (visit s u)) ∧
        (visit s u).color u = Color.black)
    (hvisitTree : ∀ s u, DfsInv ns orig s → TreeInv s → u ∈ ns → s.color u = Color.white →
      countWhite ns s.color ≤ F →
      TreeInv (visit s u) ∧
      (∃ d, (visit s u).trees = s.trees ++ d ∧
        ∀ e ∈ d, e.1 = u ∨ s.color e.1 = Color.white) ∧
      (∀ e ∈ s.edges, e ∉ (visit s u).edges → e.1 = u ∨ s.color e.1 = Color.white) ∧
      (∀ n, (visit s u).color n ≠ Color.white →
        s.color n ≠ Color.white ∨
          Relation.ReflTransGen (EdgeRel (visit s u).trees) u n))
    (hwf : ∀ e ∈ orig, e.1 ∈ ns ∧ e.2 ∈ ns) :
    ∀ vs s u, DfsInv ns orig s → TreeInv s → s.color u = Color.gray →
      vs.Nodup → (∀ v ∈ vs, (u, v) ∈ s.edges) → (∀ v ∈ vs, (u, v) ∉ s.trees) →
      countWhite ns s.color ≤ F →
      TreeInv (dfsListF visit u vs s) ∧
      (∃ d, (dfsListF visit u vs s).trees = s.trees ++ d ∧
        ∀ e ∈ d, e.1 = u ∨ s.color e.1 = Color.white) ∧
      (∀ e ∈ s.edges, e ∉ (dfsListF visit u vs s).edges →
        e.1 = u ∨ s.color e.1 = Color.white) ∧
      (∀ n, (dfsListF visit u vs s).color n ≠ Color.white →
        s.color n ≠ Color.white ∨
          Relation.ReflTransGen (EdgeRel (dfsListF visit u vs s).trees) u n) := by
  intro vs
  induction vs with
  | nil =>
    intro s u _hInv hTree _hgray _ _ _ _
    refine ⟨hTree, ⟨[], (List.append_nil _).symm, by intro e he; cases he⟩, ?_, ?_⟩
    · intro e he hne
      exact absurd he hne
    · intro n hn
      exact Or.inl hn
  | cons v rest ih =>
    intro s u hInv hTree hgray hnodup hedges htrees hcw
    have hv_edge : (u, v) ∈ s.edges := hedges v (List.mem_cons_self v rest)
    have hv_orig : (u, v) ∈ orig := hInv.edges_orig hv_edge
    have hugray : ¬ s.color u = Color.white := by
      rw [hgray]; intro hh; exact Color.noConfusion hh
    cases hc : s.color v with
    | white =>
      set sp : DfsState := { s with trees := s.trees ++ [(u, v)] } with hsp
      have hInvP : DfsInv ns orig sp := hInv.trees_irrel _
      have hTreeP : TreeInv sp := by
        refine ⟨hTree.edges_nodup, ?_, ?_⟩
        · intro e he
          rcases List.mem_append.mp he with he | he
          · exact hTree.trees_sub he
          · rw [List.mem_singleton.mp he]; exact hv_edge
        · intro e he
          rcases List.mem_append.mp he with he | he
          · exact hTree.trees_src e he
          · rw [List.mem_singleton.mp he]
            exact hugray
      have hv_ns : v ∈ ns := (hwf (u, v) hv_orig).2
      have huv : ¬ u = v := by
        intro hh
        rw [hh, hc] at hgray
        exact Color.noConfusion hgray
      obtain ⟨⟨hInv1, hPost1⟩, _hblackv⟩ := hvisitMain sp v hInvP hv_ns hc hcw
      obtain ⟨hTree1, ⟨d1, hd1, hd1src⟩, hP2a, hreach1⟩ := hvisitTree sp v hInvP hTreeP hv_ns hc hcw
      set s' := visit sp v with hs'
      have hPost1' : DfsPost s s' := DfsPost.trees_left _ hPost1
      have hgray' : s'.color u = Color.gray := (hPost1'.gray_iff u).mpr hgray
      have hcw' : countWhite ns s'.color ≤ F :=
        Nat.le_trans (countWhite_mono hPost1'.white_to ns) hcw
      have htrees' : s'.trees = s.trees ++ [(u, v)] ++ d1 := hd1
      have hedges_rest : ∀ w ∈ rest, (u, w) ∈ s'.edges := by
        intro w hw
        by_contra hno
        rcases hP2a (u, w) (hedges w (List.mem_cons_of_mem v hw)) hno with h1 | h1
        · exact huv (show u = v from h1)
        · exact hugray h1
      have htrees_rest : ∀ w ∈ rest, (u, w) ∉ s'.trees := by
        intro w hw hmem
        rw [htrees'] at hmem
        rcases List.mem_append.mp hmem with h1 | h1
        · rcases List.mem_append.mp h1 with h2 | h2
          · exact htrees w (List.mem_cons_of_mem v hw) h2
          · have h3 := List.mem_singleton.mp h2
            have hwv : w = v := by injection h3 with _ hh
            exact (List.nodup_cons.mp hnodup).1 (hwv ▸ hw)
        · rcases hd1src (u, w) h1 with h2 | h2
          · exact huv h2
          · exact hugray h2
      obtain ⟨hTree2, ⟨d2, hd2, hd2src⟩, hP2b, hreach2⟩ :=
        ih s' u hInv1 hTree1 hgray' (List.nodup_cons.mp hnodup).2 hedges_rest htrees_rest hcw'
      have hfin : dfsListF visit u (v :: rest) s = dfsListF visit u rest s' := by
        simp only [dfsListF, hc]
      rw [hfin]
      refine ⟨hTree2, ⟨[(u, v)] ++ d1 ++ d2, ?_, ?_⟩, ?_, ?_⟩
      · rw [hd2, htrees']
        simp [List.append_assoc]
      · intro e he
        rcases List.mem_append.mp he with h1 | h1
        · rcases List.mem_append.mp h1 with h2 | h2
          · exact Or.inl (by rw [List.mem_singleton.mp h2])
          · rcases hd1src e h2 with h3 | h3
            · exact Or.inr (by rw [h3]; exact hc)
            · exact Or.inr h3
        · rcases hd2src e h1 with h3 | h3
          · exact Or.inl h3
          · exact Or.inr (hPost1'.white_to _ h3)
      · intro e he hne
        by_cases hmid : e ∈ s'.edges
        · rcases hP2b e hmid hne with h1 | h1
          · exact Or.inl h1
          · exact Or.inr (hPost1'.white_to _ h1)
        · rcases hP2a e he hmid with h1 | h1
          · exact Or.inr (by rw [h1]; exact hc)
          · exact Or.inr h1
      · intro n hn
        rcases hreach2 n hn with h1 | h1
        · rcases hreach1 n h1 with h2 | h2
          · exact Or.inl h2
          · refine Or.inr ?_
            have hsub : s'.trees ⊆ (dfsListF visit u rest s').trees := by
              rw [hd2]; exact fun x hx => List.mem_append_left _ hx
            have hmono : Relation.ReflTransGen (EdgeRel (dfsListF visit u rest s').trees) v n :=
              Relation.ReflTransGen.mono (fun a b hab => hsub hab) h2
            have hstep : EdgeRel (dfsListF visit u rest s').trees u v := by
              apply hsub
              rw [htrees']
              exact List.mem_append_left _
                (List.mem_append_right _ (List.mem_singleton_self _))
            exact Relation.ReflTransGen.head hstep hmono
        · exact Or.inr h1
    | gray =>
      set s' : DfsState :=
        { s with edges := removeEdge s.edges u v, removed := s.removed ++ [(u, v)] } with hs'
      have hInv' : DfsInv ns orig s' := by
        refine ⟨hInv.black_mem, hInv.blacks_nodup,
          fun e he => hInv.edges_orig (removeEdge_subset _ _ _ he), ?_, ?_, ?_⟩
        · intro e he
          rcases List.mem_append.mp he with he | he
          · exact hInv.removed_orig e he
          · rw [List.mem_singleton.mp he]; exact hv_orig
        · intro e he
          rcases List.mem_append.mp he with he | he
          · exact fun hmem => hInv.removed_gone e he (removeEdge_subset _ _ _ hmem)
          · rw [List.mem_singleton.mp he]; exact removeEdge_not_mem _ _ _
        · intro e he hb
          exact hInv.edge_black e (removeEdge_subset _ _ _ he) hb
      have hTree' : TreeInv s' := by
        refine ⟨removeEdge_nodup hTree.edges_nodup u v, ?_, hTree.trees_src⟩
        intro e he
        have hnuv : e ≠ (u, v) := by
          intro hh
          exact htrees v (List.mem_cons_self v rest) (hh ▸ he)
        exact mem_removeEdge_of_ne (hTree.trees_sub he) hnuv
      have hedges_rest : ∀ w ∈ rest, (u, w) ∈ s'.edges := by
        intro w hw
        have hne : (u, w) ≠ (u, v) := by
          intro hh
          injection hh with _ h2
          exact (List.nodup_cons.mp hnodup).1 (h2 ▸ hw)
        exact mem_removeEdge_of_ne (hedges w (List.mem_cons_of_mem v hw)) hne
      obtain ⟨hTree2, ⟨d2, hd2, hd2src⟩, hP2b, hreach2⟩ :=
        ih s' u hInv' hTree' hgray (List.nodup_cons.mp hnodup).2 hedges_rest
          (fun w hw => htrees w (List.mem_cons_of_mem v hw)) hcw
      have hfin : dfsListF visit u (v :: rest) s = dfsListF visit u rest s' := by
        simp only [dfsListF, hc]
      rw [hfin]
      refine ⟨hTree2, ⟨d2, hd2, hd2src⟩, ?_, hreach2⟩
      intro e he hne
      by_cases hmid : e ∈ s'.edges
      · exact hP2b e hmid hne
      · have h1 := removeEdge_removed_eq he hmid
        exact Or.inl (by rw [h1])
    | black =>
      obtain ⟨hTree2, hd2, hP2b, hreach2⟩ :=
        ih s u hInv hTree hgray (List.nodup_cons.mp hnodup).2
          (fun w hw => hedges w (List.mem_cons_of_mem v hw))
          (fun w hw => htrees w (List.mem_cons_of_mem v hw)) hcw
      have hfin : dfsListF visit u (v :: rest) s = dfsListF visit u rest s := by
        simp only [dfsListF, hc]
      rw [hfin]
      exact ⟨hTree2, hd2, hP2b, hreach2⟩

/-- Tree-ghost specification of `_dfs_visit`. -/
theorem dfsVisit_tree_spec (ns : List Node) (orig : List Edge)
    (hwf : ∀ e ∈ orig, e.1 ∈ ns ∧ e.2 ∈ ns) :
    ∀ fuel : Nat, ∀ s u, DfsInv ns orig s → TreeInv s → u ∈ ns → s.color u = Color.white →
      countWhite ns s.color ≤ fuel →
      TreeInv (dfsVisit fuel s u) ∧
      (∃ d, (dfsVisit fuel s u).trees = s.trees ++ d ∧
        ∀ e ∈ d, e.1 = u ∨ s.color e.1 = Color.white) ∧
      (∀ e ∈ s.edges, e ∉ (dfsVisit fuel s u).edges → e.1 = u ∨ s.color e.1 = Color.white) ∧
      (∀ n, (dfsVisit fuel s u).color n ≠ Color.white →
        s.color n ≠ Color.white ∨
          Relation.ReflTransGen (EdgeRel (dfsVisit fuel s u).trees) u n) := by
  intro fuel
  induction fuel with
  | zero =>
    intro s u _ _ hu hw hcw
    exfalso
    have := countWhite_pos hu hw
    omega
  | succ f ih =>
    intro s u hInv hTree hu hw hcw
    set s1 : DfsState :=
      { s with color := fun x => if x = u then Color.gray else s.color x } with hs1
    have hcol1 : ∀ n, s1.color n = if n = u then Color.gray else s.color n := fun n => rfl
    have hgray1 : s1.color u = Color.gray := by rw [hcol1, if_pos rfl]
    have hInv1 : DfsInv ns orig s1 := hInv.gray_update hw
    have hTree1 : TreeInv s1 := treeInv_gray_update hTree
    have hcw1 : countWhite ns s1.color ≤ f := by
      have h2 : countWhite ns s1.color + 1 ≤ countWhite ns s.color :=
        countWhite_update_gray hu hw
      omega
    have hvs_nodup : (adjOf s1.edges u).Nodup := adjOf_nodup hTree.edges_nodup u
    have hvs_edges : ∀ v ∈ adjOf s1.edges u, (u, v) ∈ s1.edges := fun _v hv => adjOf_mem hv
    have hvs_trees : ∀ v ∈ adjOf s1.edges u, (u, v) ∉ s1.trees := by
      intro v _ hmem
      exact hTree.trees_src (u, v) hmem hw
    obtain ⟨hTree2, ⟨d2, hd2, hd2src⟩, hP2, hreach⟩ :=
      dfsListT_spec ns orig (dfsVisit f) f (dfsVisit_spec ns orig hwf f) ih hwf
        (adjOf s1.edges u) s1 u hInv1 hTree1 hgray1 hvs_nodup hvs_edges hvs_trees hcw1
    set s2 := dfsListF (dfsVisit f) u (adjOf s1.edges u) s1 with hs2
    set s3 : DfsState :=
      { s2 with color := fun x => if x = u then Color.black else s2.color x,
                blacks := s2.blacks ++ [u] } with hs3
    have hcol3 : ∀ n, s3.color n = if n = u then Color.black else s2.color n := fun n => rfl
    have hfin : dfsVisit (f + 1) s u = s3 := rfl
    rw [hfin]
    refine ⟨?_, ?_, ?_, ?_⟩
    · refine ⟨hTree2.edges_nodup, hTree2.trees_sub, ?_⟩
      intro e he hwht
      rw [hcol3] at hwht
      by_cases h1 : e.1 = u
      · rw [if_pos h1] at hwht; exact Color.noConfusion hwht
      · rw [if_neg h1] at hwht
        exact hTree2.trees_src e he hwht
    · refine ⟨d2, hd2, ?_⟩
      intro e he
      rcases hd2src e he with h1 | h1
      · exact Or.inl h1
      · rw [hcol1] at h1
        by_cases h2 : e.1 = u
        · exact Or.inl h2
        · rw [if_neg h2] at h1
          exact Or.inr h1
    · intro e he hne
      rcases hP2 e he hne with h1 | h1
      · exact Or.inl h1
      · rw [hcol1] at h1
        by_cases h2 : e.1 = u
        · exact Or.inl h2
        · rw [if_neg h2] at h1
          exact Or.inr h1
    · intro n hn
      by_cases h1 : n = u
      · subst h1
        exact Or.inr Relation.ReflTransGen.refl
      · rw [hcol3, if_neg h1] at hn
        rcases hreach n hn with h2 | h2
        · rw [hcol1, if_neg h1] at h2
          exact Or.inl h2
        · exact Or.inr h2

theorem middlePass_tree {s : DfsState} (h : TreeInv s) : TreeInv (middlePass s) := by
  refine ⟨h.edges_nodup.filter _, ?_, h.trees_src⟩
  intro e he
  refine List.mem_filter.mpr ⟨h.trees_sub he, ?_⟩
  have hsrc := h.trees_src e he
  have h1 : (s.color e.1 == Color.white) = false := by
    cases hcc : s.color e.1 == Color.white
    · rfl
    · exact absurd (by simpa using hcc) hsrc
  simp [h1]

theorem thirdPass_tree (ns : List Node) (orig : List Edge)
    (hwf : ∀ e ∈ orig, e.1 ∈ ns ∧ e.2 ∈ ns) :
    ∀ (rest : List Node) (s : DfsState), DfsInv ns orig s → TreeInv s →
      (∀ v ∈ rest, v ∈ ns) →
      TreeInv (thirdPass ns.length rest s) ∧
      s.trees ⊆ (thirdPass ns.length rest s).trees := by
  intro rest
  induction rest with
  | nil =>
    intro s _ hT _
    exact ⟨hT, fun x hx => hx⟩
  | cons n rest' ih =>
    intro s hInv hTree hmem
    by_cases hw : s.color n = Color.white
    · have hbeq : (s.color n == Color.white) = true := by rw [hw]; rfl
      have hstep : thirdPass ns.length (n :: rest') s =
          thirdPass ns.length rest' (dfsVisit ns.length s n) := by
        simp only [thirdPass, hbeq, if_true]
      obtain ⟨⟨hInv1, _hPost1⟩, _⟩ :=
        dfsVisit_spec ns orig hwf ns.length s n hInv (hmem n (List.mem_cons_self n rest'))
          hw (countWhite_le ns s.color)
      obtain ⟨hTree1, ⟨d, hd, _⟩, _, _⟩ :=
        dfsVisit_tree_spec ns orig hwf ns.length s n hInv hTree
          (hmem n (List.mem_cons_self n rest')) hw (countWhite_le ns s.color)
      obtain ⟨hTree2, hsub2⟩ :=
        ih (dfsVisit ns.length s n) hInv1 hTree1
          (fun v hv => hmem v (List.mem_cons_of_mem n hv))
      rw [hstep]
      refine ⟨hTree2, ?_⟩
      intro x hx
      apply hsub2
      rw [hd]
      exact List.mem_append_left _ hx
    · have hbeq : (s.color n == Color.white) = false := by
        cases hh : (s.color n == Color.white)
        · rfl
        · exact absurd (by simpa using hh) hw
      have hstep : thirdPass ns.length (n :: rest') s = thirdPass ns.length rest' s := by
        simp only [thirdPass, hbeq, Bool.false_eq_true, if_false]
      rw [hstep]
      exact ih s hInv hTree (fun v hv => hmem v (List.mem_cons_of_mem n hv))

theorem middlePass_edges_eq {s : DfsState}
    (h : ∀ e ∈ s.edges, ¬(s.color e.1 = Color.white ∧ s.color e.2 = Color.black)) :
    (middlePass s).edges = s.edges := by
  apply List.filter_eq_self.mpr
  intro e he
  have hne := h e he
  by_cases h1 : s.color e.1 = Color.white
  · have h2 : ¬ s.color e.2 = Color.black := fun hh => hne ⟨h1, hh⟩
    have h2' : (s.color e.2 == Color.black) = false := by
      cases hb : s.color e.2 == Color.black
      · rfl
      · exact absurd (by simpa using hb) h2
    simp [h2']
  · have h1' : (s.color e.1 == Color.white) = false := by
      cases hb : s.color e.1 == Color.white
      · rfl
      · exact absurd (by simpa using hb) h1
    simp [h1']

theorem dfsInv_init (ns : List Node) (es : List Edge) :
    DfsInv ns es ⟨es, fun _ => Color.white, [], [], []⟩ := by
  refine ⟨?_, List.nodup_nil, fun e he => he, ?_, ?_, ?_⟩
  · intro n
    constructor
    · intro hb; exact Color.noConfusion hb
    · intro hb; cases hb
  · intro e he; cases he
  · intro e he; cases he
  · intro e _he hb; exact Color.noConfusion hb

theorem treeInv_init (es : List Edge) (h : es.Nodup) :
    TreeInv ⟨es, fun _ => Color.white, [], [], []⟩ := by
  refine ⟨h, ?_, ?_⟩
  · intro e he; cases he
  · intro e he; cases he

/-- On an acyclic graph, walking a successor snapshot never meets a gray
node (that would close a cycle through the gray-path invariant), so it
removes no edge; visited nodes stay inside any predicate closed under the
graph's edges. -/
theorem dfsListP_spec (ns : List Node) (orig : List Edge)
    (hacyc : Acyclic orig) (P : Node → Prop)
    (hP : ∀ e ∈ orig, P e.1 → P e.2)
    (visit : DfsState → Node → DfsState) (F : Nat)
    (hvisitMain : ∀ s u, DfsInv ns orig s → u ∈ ns → s.color u = Color.white →
      countWhite ns s.color ≤ F →
      (DfsInv ns orig (visit s u) ∧ DfsPost s (visit s u)) ∧
        (visit s u).color u = Color.black)
    (hvisitPure : ∀ s u, DfsInv ns orig s → s.edges = orig →
      (∀ n, s.color n = Color.gray → Relation.ReflTransGen (EdgeRel orig) n u) →
      (∀ n, s.color n ≠ Color.white → P n) → P u →
      u ∈ ns → s.color u = Color.white → countWhite ns s.color ≤ F →
      (visit s u).edges = orig ∧ (visit s u).removed = s.removed ∧
      (∀ n, (visit s u).color n ≠ Color.white → P n))
    (hwf : ∀ e ∈ orig, e.1 ∈ ns ∧ e.2 ∈ ns) :
    ∀ vs s u, DfsInv ns orig s → s.edges = orig → s.color u = Color.gray →
      (∀ n, s.color n = Color.gray → Relation.ReflTransGen (EdgeRel orig) n u) →
      (∀ n, s.color n ≠ Color.white → P n) →
      (∀ v ∈ vs, (u, v) ∈ orig) → countWhite ns s.color ≤ F →
      (dfsListF visit u vs s).edges = orig ∧
      (dfsListF visit u vs s).removed = s.removed ∧
      (∀ n, (dfsListF visit u vs s).color n ≠ Color.white → P n) := by
  intro vs
  induction vs with
  | nil =>
    intro s u _ hE _ _ hPold _ _
    exact ⟨hE, rfl, hPold⟩
  | cons v rest ih =>
    intro s u hInv hE hgray hGP hPold hvs hcw
    have hv_orig : (u, v) ∈ orig := hvs v (List.mem_cons_self v rest)
    cases hc : s.color v with
    | white =>
      set sp : DfsState := { s with trees := s.trees ++ [(u, v)] } with hsp
      have hInvP : DfsInv ns orig sp := hInv.trees_irrel _
      have hEP : sp.edges = orig := hE
      have hv_ns : v ∈ ns := (hwf (u, v) hv_orig).2
      have hGPv : ∀ n, sp.color n = Color.gray →
          Relation.ReflTransGen (EdgeRel orig) n v := by
        intro n hn
        exact Relation.ReflTransGen.tail (hGP n hn) (show EdgeRel orig u v from hv_orig)
      have hPu : P u := hPold u (by rw [hgray]; intro hh; exact Color.noConfusion hh)
      have hPv : P v := hP (u, v) hv_orig hPu
      obtain ⟨hE1, hR1, hPnew1⟩ :=
        hvisitPure sp v hInvP hEP hGPv hPold hPv hv_ns hc hcw
      obtain ⟨⟨hInv1, hPost1⟩, _⟩ := hvisitMain sp v hInvP hv_ns hc hcw
      set s' := visit sp v with hs'
      have hPost1' : DfsPost s s' := DfsPost.trees_left _ hPost1
      have hgray' : s'.color u = Color.gray := (hPost1'.gray_iff u).mpr hgray
      have hGP' : ∀ n, s'.color n = Color.gray →
          Relation.ReflTransGen (EdgeRel orig) n u := by
        intro n hn
        exact hGP n ((hPost1'.gray_iff n).mp hn)
      have hcw' : countWhite ns s'.color ≤ F :=
        Nat.le_trans (countWhite_mono hPost1'.white_to ns) hcw
      obtain ⟨hE2, hR2, hPnew2⟩ :=
        ih s' u hInv1 hE1 hgray' hGP' hPnew1
          (fun w hw => hvs w (List.mem_cons_of_mem v hw)) hcw'
      have hfin : dfsListF visit u (v :: rest) s = dfsListF visit u rest s' := by
        simp only [dfsListF, hc]
      rw [hfin]
      exact ⟨hE2, by rw [hR2, hR1], hPnew2⟩
    | gray =>
      exfalso
      have hrtg : Relation.ReflTransGen (EdgeRel orig) v u := hGP v hc
      exact hacyc v (Relation.TransGen.tail' hrtg (show EdgeRel orig u v from hv_orig))
    | black =>
      obtain ⟨hE2, hR2, hPnew2⟩ :=
        ih s u hInv hE hgray hGP hPold
          (fun w hw => hvs w (List.mem_cons_of_mem v hw)) hcw
      have hfin : dfsListF visit u (v :: rest) s = dfsListF visit u rest s := by
        simp only [dfsListF, hc]
      rw [hfin]
      exact ⟨hE2, hR2, hPnew2⟩

/-- `_dfs_visit` on an acyclic graph, started white with a gray-path
invariant: the edge list is untouched, nothing is recorded as removed, and
every node painted is in any predicate closed under the edges that holds at
the start. -/
theorem dfsVisitP_spec (ns : List Node) (orig : List Edge)
    (hwf : ∀ e ∈ orig, e.1 ∈ ns ∧ e.2 ∈ ns)
    (hacyc : Acyclic orig) (P : Node → Prop)
    (hP : ∀ e ∈ orig, P e.1 → P e.2) :
    ∀ fuel : Nat, ∀ s u, DfsInv ns orig s → s.edges = orig →
      (∀ n, s.color n = Color.gray → Relation.ReflTransGen (EdgeRel orig) n u) →
      (∀ n, s.color n ≠ Color.white → P n) → P u →
      u ∈ ns → s.color u = Color.white → countWhite ns s.color ≤ fuel →
      (dfsVisit fuel s u).edges = orig ∧ (dfsVisit fuel s u).removed = s.removed ∧
      (∀ n, (dfsVisit fuel s u).color n ≠ Color.white → P n) := by
  intro fuel
  induction fuel with
  | zero =>
    intro s u _ _ _ _ _ hu hw hcw
    exfalso
    have := countWhite_pos hu hw
    omega
  | succ f ih =>
    intro s u hInv hE hGP hPold hPu hu hw hcw
    set s1 : DfsState :=
      { s with color := fun x => if x = u then Color.gray else s.color x } with hs1
    have hcol1 : ∀ n, s1.color n = if n = u then Color.gray else s.color n := fun n => rfl
    have hgray1 : s1.color u = Color.gray := by rw [hcol1, if_pos rfl]
    have hInv1 : DfsInv ns orig s1 := hInv.gray_update hw
    have hE1 : s1.edges = orig := hE
    have hGP1 : ∀ n, s1.color n = Color.gray →
        Relation.ReflTransGen (EdgeRel orig) n u := by
      intro n hn
      rw [hcol1] at hn
      by_cases h1 : n = u
      · subst h1; exact Relation.ReflTransGen.refl
      · rw [if_neg h1] at hn
        exact hGP n hn
    have hPold1 : ∀ n, s1.color n ≠ Color.white → P n := by
      intro n hn
      rw [hcol1] at hn
      by_cases h1 : n = u
      · subst h1; exact hPu
      · rw [if_neg h1] at hn
        exact hPold n hn
    have hcw1 : countWhite ns s1.color ≤ f := by
      have h2 : countWhite ns s1.color + 1 ≤ countWhite ns s.color :=
        countWhite_update_gray hu hw
      omega
    have hvs : ∀ v ∈ adjOf s1.edges u, (u, v) ∈ orig := fun v hv =>
      hInv.edges_orig (adjOf_mem hv)
    obtain ⟨hE2, hR2, hPnew2⟩ :=
      dfsListP_spec ns orig hacyc P hP (dfsVisit f) f (dfsVisit_spec ns orig hwf f) ih hwf
        (adjOf s1.edges u) s1 u hInv1 hE1 hgray1 hGP1 hPold1 hvs hcw1
    set s2 := dfsListF (dfsVisit f) u (adjOf s1.edges u) s1 with hs2
    set s3 : DfsState :=
      { s2 with color := fun x => if x = u then Color.black else s2.color x,
                blacks := s2.blacks ++ [u] } with hs3
    have hfin : dfsVisit (f + 1) s u = s3 := rfl
    rw [hfin]
    refine ⟨hE2, ?_, ?_⟩
    · show s2.removed = s.removed
      rw [hR2]
    · intro n hn
      have hn' : (if n = u then Color.black else s2.color n) ≠ Color.white := hn
      by_cases h1 : n = u
      · subst h1; exact hPu
      · rw [if_neg h1] at hn'
        exact hPnew2 n hn'

/-- The third pass on an acyclic gray-free state removes nothing. -/
theorem thirdPassP_spec (ns : List Node) (orig : List Edge)
    (hwf : ∀ e ∈ orig, e.1 ∈ ns ∧ e.2 ∈ ns) (hacyc : Acyclic orig) :
    ∀ (rest : List Node) (s : DfsState), DfsInv ns orig s → s.edges = orig →
      (∀ n, s.color n ≠ Color.gray) → (∀ v ∈ rest, v ∈ ns) →
      (thirdPass ns.length rest s).edges = orig ∧
      (thirdPass ns.length rest s).removed = s.removed := by
  intro rest
  induction rest with
  | nil =>
    intro s _ hE _ _
    exact ⟨hE, rfl⟩
  | cons n rest' ih =>
    intro s hInv hE hng hmem
    by_cases hw : s.color n = Color.white
    · have hbeq : (s.color n == Color.white) = true := by rw [hw]; rfl
      have hstep : thirdPass ns.length (n :: rest') s =
          thirdPass ns.length rest' (dfsVisit ns.length s n) := by
        simp only [thirdPass, hbeq, if_true]
      have hGP : ∀ m, s.color m = Color.gray →
          Relation.ReflTransGen (EdgeRel orig) m n := by
        intro m hm
        exact absurd hm (hng m)
      obtain ⟨hE1, hR1, _⟩ :=
        dfsVisitP_spec ns orig hwf hacyc (fun _ => True) (fun _ _ _ => trivial)
          ns.length s n hInv hE hGP (fun _ _ => trivial) trivial
          (hmem n (List.mem_cons_self n rest')) hw (countWhite_le ns s.color)
      obtain ⟨⟨hInv1, hPost1⟩, _⟩ :=
        dfsVisit_spec ns orig hwf ns.length s n hInv (hmem n (List.mem_cons_self n rest'))
          hw (countWhite_le ns s.color)
      have hng1 : ∀ m, (dfsVisit ns.length s n).color m ≠ Color.gray := by
        intro m hm
        exact hng m ((hPost1.gray_iff m).mp hm)
      obtain ⟨hE2, hR2⟩ :=
        ih (dfsVisit ns.length s n) hInv1 hE1 hng1
          (fun v hv => hmem v (List.mem_cons_of_mem n hv))
      rw [hstep]
      exact ⟨hE2, by rw [hR2, hR1]⟩
    · have hbeq : (s.color n == Color.white) = false := by
        cases hh : (s.color n == Color.white)
        · rfl
        · exact absurd (by simpa using hh) hw
      have hstep : thirdPass ns.length (n :: rest') s = thirdPass ns.length rest' s := by
        simp only [thirdPass, hbeq, Bool.false_eq_true, if_false]
      rw [hstep]
      exact ih s hInv hE hng (fun v hv => hmem v (List.mem_cons_of_mem n hv))

/-- Nodes reachable (in the graph an invariant state carries) from a black
node are black: `edge_black` pushes blackness along every edge. -/
theorem black_closure {ns : List Node} {orig : List Edge} {t1 : DfsState}
    (hInv : DfsInv ns orig t1) (hE : t1.edges = orig) {n0 m : Node}
    (hb : t1.color n0 = Color.black)
    (hr : Relation.ReflTransGen (EdgeRel orig) n0 m) : t1.color m = Color.black := by
  induction hr with
  | refl => exact hb
  | @tail b c _hst hstep ih =>
    have hbc : (b, c) ∈ t1.edges := by rw [hE]; exact hstep
    exact (hInv.edge_black (b, c) hbc ih).1

/-- Facts about a successful default-start run of `decyclify`: the node
list is kept; the result is acyclic, with duplicate-free edges drawn from
the input; and the set `V1` of nodes blackened by the first pass contains
the start node, is closed under result edges in both directions (the
middle pass deletes precisely the edges entering it from outside), and is
reachable from the start node inside the result. -/
theorem decyclify_run1 (g : DiGraph) (hwf : WF g) {n0 : Node} {ntail : List Node}
    (hn : g.nodes = n0 :: ntail) (gr : DiGraph) (rem : List Edge)
    (h : decyclify g none = Sum.inr (gr, rem)) :
    gr.nodes = g.nodes ∧ Acyclic gr.edges ∧ gr.edges ⊆ g.edges ∧ gr.edges.Nodup ∧
    ∃ V1 : List Node, n0 ∈ V1 ∧
      (∀ x y, (x, y) ∈ gr.edges → x ∈ V1 → y ∈ V1) ∧
      (∀ x y, (x, y) ∈ gr.edges → y ∈ V1 → x ∈ V1) ∧
      (∀ m, m ∈ V1 → Relation.ReflTransGen (EdgeRel gr.edges) n0 m) := by
  rw [decyclify_cons hn] at h
  simp only [Option.getD_none] at h
  injection h with h1
  injection h1 with hA hB
  subst hA
  subst hB
  have hwf' : ∀ e ∈ g.edges, e.1 ∈ g.nodes ∧ e.2 ∈ g.nodes := hwf.2.2
  set s0 : DfsState := ⟨g.edges, fun _ => Color.white, [], [], []⟩ with hs0
  have hInv0 : DfsInv g.nodes g.edges s0 := dfsInv_init g.nodes g.edges
  have hTree0 : TreeInv s0 := treeInv_init g.edges hwf.2.1
  have hn0 : n0 ∈ g.nodes := by rw [hn]; exact List.mem_cons_self _ _
  have hw0 : s0.color n0 = Color.white := rfl
  obtain ⟨⟨hInv1, hPost1⟩, hb1⟩ :=
    dfsVisit_spec g.nodes g.edges hwf' g.nodes.length s0 n0 hInv0 hn0 hw0 (countWhite_le _ _)
  obtain ⟨hTree1, ⟨d1, hd1, _⟩, _, hreach1⟩ :=
    dfsVisit_tree_spec g.nodes g.edges hwf' g.nodes.length s0 n0 hInv0 hTree0 hn0 hw0
      (countWhite_le _ _)
  set s1 := dfsVisit g.nodes.length s0 n0 with hs1
  have hng1 : ∀ n, s1.color n ≠ Color.gray := by
    intro n hgn
    exact Color.noConfusion ((hPost1.gray_iff n).mp hgn)
  obtain ⟨hInvM, hPostM⟩ := middlePass_spec hInv1
  have hTreeM : TreeInv (middlePass s1) := middlePass_tree hTree1
  have hngM : ∀ n, (middlePass s1).color n ≠ Color.gray := hng1
  obtain ⟨⟨hInv3, hPost3⟩, hb3, _⟩ :=
    thirdPass_spec g.nodes g.edges hwf' g.nodes (middlePass s1) hInvM hngM (fun v hv => hv)
  obtain ⟨hTree3, hsub3⟩ :=
    thirdPass_tree g.nodes g.edges hwf' g.nodes (middlePass s1) hInvM hTreeM (fun v hv => hv)
  set s3 := thirdPass g.nodes.length g.nodes (middlePass s1) with hs3
  have hacyc3 : Acyclic s3.edges := by
    apply acyclic_of_rank (fun m => posOf m s3.blacks)
    intro u v huv
    have huv' : (u, v) ∈ s3.edges := huv
    have horig : (u, v) ∈ g.edges := hInv3.edges_orig huv'
    have hu : u ∈ g.nodes := (hwf' (u, v) horig).1
    exact (hInv3.edge_black (u, v) huv' (hb3 u hu)).2
  refine ⟨rfl, hacyc3, fun e he => hInv3.edges_orig he, hTree3.edges_nodup,
    s1.blacks, (hInv1.black_mem n0).mp hb1, ?_, ?_, ?_⟩
  · intro x y hxy hx
    have hxy2 : (x, y) ∈ (middlePass s1).edges := hPost3.edges_sub hxy
    have hxy1 : (x, y) ∈ s1.edges := (List.mem_filter.mp hxy2).1
    have hbx : s1.color x = Color.black := (hInv1.black_mem x).mpr hx
    exact (hInv1.black_mem y).mp (hInv1.edge_black (x, y) hxy1 hbx).1
  · intro x y hxy hy
    have hxy2 : (x, y) ∈ (middlePass s1).edges := hPost3.edges_sub hxy
    have hpred : (!(s1.color x == Color.white && s1.color y == Color.black)) = true :=
      (List.mem_filter.mp hxy2).2
    have hby : s1.color y = Color.black := (hInv1.black_mem y).mpr hy
    have hxw : s1.color x ≠ Color.white := by
      intro hxw
      rw [hxw, hby] at hpred
      exact absurd hpred (by decide)
    have hbx : s1.color x = Color.black := by
      cases hcx : s1.color x
      · exact absurd hcx hxw
      · exact absurd hcx (hng1 x)
      · rfl
    exact (hInv1.black_mem x).mp hbx
  · intro m hm
    have hbm : s1.color m = Color.black := (hInv1.black_mem m).mpr hm
    have hnw : s1.color m ≠ Color.white := by
      rw [hbm]; intro hh; exact Color.noConfusion hh
    rcases hreach1 m hnw with h0 | h0
    · exact absurd rfl h0
    · refine Relation.ReflTransGen.mono ?_ h0
      intro a b hab
      have h2 : (a, b) ∈ s3.trees := hsub3 hab
      exact hTree3.trees_sub h2

/-- C7 counterexample: for the graph with no nodes, `decyclify` returns the
bare graph, and applying `decyclify` to that returned graph again yields
the bare graph with no removed-edges list at all — the pair (same graph,
empty list) promised by the claim is never produced. -/
theorem c7_empty_no_pair_counterexample :
    decyclify (buildGraph []) none = Sum.inl (buildGraph []) ∧
    ∀ pr : DiGraph × List Edge, decyclify (buildGraph []) none ≠ Sum.inr pr := by
  refine ⟨rfl, ?_⟩
  intro pr hpr
  rw [decyclify_nil rfl] at hpr
  exact Sum.noConfusion hpr

/-- C7 (amended): on the pair-returning path `decyclify` is idempotent —
for every well-formed graph whose decyclification returns a pair
(gr, rem), decyclifying `gr` returns exactly (gr, []): same nodes, same
edges, empty removed-edges list.  The amendment excludes the graph with no
nodes, for which both applications return the bare graph and no list. -/
theorem c7_idempotent_amended (g : DiGraph) (hwf : WF g)
    (gr : DiGraph) (rem : List Edge)
    (h : decyclify g none = Sum.inr (gr, rem)) :
    decyclify gr none = Sum.inr (gr, []) := by
  cases hn : g.nodes with
  | nil =>
    rw [decyclify_nil hn] at h
    exact Sum.noConfusion h
  | cons n0 ntail =>
    obtain ⟨hnodes, hacyc, hsub, hnodup, V1, hn0V1, hsucc, hpred, hreach⟩ :=
      decyclify_run1 g hwf hn gr rem h
    have hn2 : gr.nodes = n0 :: ntail := by rw [hnodes, hn]
    have hwf2 : ∀ e ∈ gr.edges, e.1 ∈ gr.nodes ∧ e.2 ∈ gr.nodes := by
      intro e he
      rw [hnodes]
      exact hwf.2.2 e (hsub he)
    rw [decyclify_cons hn2]
    simp only [Option.getD_none]
    set t0 : DfsState := ⟨gr.edges, fun _ => Color.white, [], [], []⟩ with ht0
    have hInv0 : DfsInv gr.nodes gr.edges t0 := dfsInv_init gr.nodes gr.edges
    have hn0mem : n0 ∈ gr.nodes := by rw [hn2]; exact List.mem_cons_self _ _
    have hw0 : t0.color n0 = Color.white := rfl
    obtain ⟨⟨hInv1, hPost1⟩, hb1⟩ :=
      dfsVisit_spec gr.nodes gr.edges hwf2 gr.nodes.length t0 n0 hInv0 hn0mem hw0
        (countWhite_le _ _)
    have hP' : ∀ e ∈ gr.edges, e.1 ∈ V1 → e.2 ∈ V1 := by
      intro e he hp
      obtain ⟨a, b⟩ := e
      exact hsucc a b he hp
    have hGP0 : ∀ m, t0.color m = Color.gray →
        Relation.ReflTransGen (EdgeRel gr.edges) m n0 := by
      intro m hm
      exact Color.noConfusion hm
    have hPold0 : ∀ m, t0.color m ≠ Color.white → m ∈ V1 := by
      intro m hm
      exact absurd rfl hm
    obtain ⟨hE1, hR1, hPnew⟩ :=
      dfsVisitP_spec gr.nodes gr.edges hwf2 hacyc (fun m => m ∈ V1) hP'
        gr.nodes.length t0 n0 hInv0 rfl hGP0 hPold0 hn0V1 hn0mem hw0 (countWhite_le _ _)
    set t1 := dfsVisit gr.nodes.length t0 n0 with ht1
    have hV1black : ∀ m ∈ V1, t1.color m = Color.black := by
      intro m hm
      exact black_closure hInv1 hE1 hb1 (hreach m hm)
    have hmid : ∀ e ∈ t1.edges,
        ¬(t1.color e.1 = Color.white ∧ t1.color e.2 = Color.black) := by
      intro e he hcontra
      obtain ⟨a, b⟩ := e
      obtain ⟨hw1, hb2⟩ := hcontra
      have he' : (a, b) ∈ gr.edges := by rw [← hE1]; exact he
      have hyV1 : b ∈ V1 := hPnew b (by rw [hb2]; intro hh; exact Color.noConfusion hh)
      have hxV1 : a ∈ V1 := hpred a b he' hyV1
      have hba : t1.color a = Color.black := hV1black a hxV1
      rw [hw1] at hba
      exact Color.noConfusion hba
    have hEmid : (middlePass t1).edges = gr.edges := by
      rw [middlePass_edges_eq hmid, hE1]
    have hng1 : ∀ m, t1.color m ≠ Color.gray := by
      intro m hm
      exact Color.noConfusion ((hPost1.gray_iff m).mp hm)
    obtain ⟨hInvM, _⟩ := middlePass_spec hInv1
    have hngM : ∀ m, (middlePass t1).color m ≠ Color.gray := hng1
    obtain ⟨hE3, hR3⟩ :=
      thirdPassP_spec gr.nodes gr.edges hwf2 hacyc gr.nodes (middlePass t1) hInvM hEmid
        hngM (fun v hv => hv)
    set t3 := thirdPass gr.nodes.length gr.nodes (middlePass t1) with ht3
    have hR3' : t3.removed = [] := by
      rw [hR3]
      show t1.removed = []
      rw [hR1]
    rw [hE3, hR3']

/-- C7 witness: the four-node sample a→b, b→c, c→b, c→d decyclifies to the
chain graph with removed edge (c, b), and decyclifying that output returns
the output itself with an empty removed list. -/
theorem c7_idempotent_amended_witness :
    WF sampleGraph4 ∧
    decyclify sampleGraph4 none = Sum.inr (sampleGraph4Out, [("c", "b")]) ∧
    decyclify sampleGraph4Out none = Sum.inr (sampleGraph4Out, []) :=
  ⟨by decide, by decide,
    c7_idempotent_amended sampleGraph4 (by decide) sampleGraph4Out [("c", "b")] (by decide)⟩
